import Mathlib

/-!
Julia set renderer (`juliaset.cpp`): embedding and verified properties.

The C++ program is embedded shallowly.  A `double` is modelled by an exact
rational number (`ℚ`), so every statement below is about the arithmetic the
program writes down, free of rounding error; an `int` is an `Int`, and the
one `int` expression that is evaluated for arbitrary arguments, the product
`width * height` of the constructor, is reduced to 32 bits (`wrapInt32`).  A `Uint32` is a `Nat`
reduced modulo `2^32`, a `Uint8` a `Nat` reduced modulo `2^8`.
-/

namespace Julia

/-! ## Numbers -/

/-- A value of `std::complex<double>`: real and imaginary part. -/
structure Cplx where
  re : ℚ
  im : ℚ
deriving DecidableEq

namespace Cplx

/-- Complex product, `operator*` of `std::complex`. -/
def mul (a b : Cplx) : Cplx :=
  ⟨a.re * b.re - a.im * b.im, a.re * b.im + a.im * b.re⟩

/-- Complex sum, `operator+` of `std::complex`. -/
def add (a b : Cplx) : Cplx :=
  ⟨a.re + b.re, a.im + b.im⟩

instance : Mul Cplx := ⟨mul⟩
instance : Add Cplx := ⟨add⟩

/-- Squared modulus `re² + im²`. -/
def normSq (z : Cplx) : ℚ := z.re * z.re + z.im * z.im

/-- The test `std::abs(z) <= r`.  The modulus `sqrt (re² + im²)` is not
rational in general; the comparison is decided on the squares, which is the
same test (see `absLe_iff_sqrt_le`). -/
def absLe (z : Cplx) (r : ℚ) : Bool :=
  decide (0 ≤ r) && decide (z.normSq ≤ r * r)

end Cplx

/-- Map a value from one range to another (`map`, lines 12-14). -/
def map (value start1 stop1 start2 stop2 : ℚ) : ℚ :=
  start2 + (stop2 - start2) * ((value - start1) / (stop1 - start1))

/-! ## The engine -/

/-- The data members of `class JuliaSet` (lines 75-81). -/
structure JuliaSet where
  width_ : Int
  height_ : Int
  max_iter_ : Int
  radius_ : ℚ
  c_ : Cplx
  pixels_ : List Nat
  update_c_ : Bool

/-- The `while` loop of `JuliaSet::iterations` (lines 25-28), with the
iteration budget as recursion fuel: one unit of fuel is one evaluation of the
loop test followed by the body. -/
def iterationsLoop (radius_ : ℚ) (c_ : Cplx) (max_iter_ : Int) : Nat → Cplx → Int → Int
  | 0, _, i => i
  | fuel + 1, z, i =>
    if z.absLe radius_ && decide (i < max_iter_) then
      iterationsLoop radius_ c_ max_iter_ fuel (z * z + c_) (i + 1)
    else i

/-- Calculate iterations to escape (`JuliaSet::iterations`, lines 23-30).
The loop body runs at most `max_iter_` times, which is the fuel supplied
(`iterationsLoop_fuel` shows any larger fuel gives the same value). -/
def JuliaSet.iterations (s : JuliaSet) (z : Cplx) : Int :=
  iterationsLoop s.radius_ s.c_ s.max_iter_ s.max_iter_.toNat z 0

/-- The orbit `z_0 = z0`, `z_{k+1} = z_k * z_k + c` of the escape-time
recurrence. -/
def orbit (c z0 : Cplx) : Nat → Cplx
  | 0 => z0
  | k + 1 => orbit c z0 k * orbit c z0 k + c

/-! ## Colouring and rendering -/

/-- Conversion of a `double` to an integer as C++ does it: the fractional part
is dropped (rounding toward zero). -/
def truncToInt (x : ℚ) : Int :=
  if 0 ≤ x then ⌊x⌋ else ⌈x⌉

/-- The cast `static_cast<Uint8>(x)` (lines 46-48): the truncated value, kept
to its low 8 bits.  (For a value outside `[0, 256)` the C++ conversion is
not defined; keeping the low 8 bits is what the usual targets do, and
`red_range`, `green_range`, `blue_range` show `render` never gets there.) -/
def toUint8 (x : ℚ) : Nat :=
  (truncToInt x % 256).toNat

/-- The three channels `(r, g, b)` computed in lines 43-49 from the iteration
count `iter`. -/
def channels (max_iter_ iter : Int) : Nat × Nat × Nat :=
  if iter < max_iter_ then
    let t : ℚ := (iter : ℚ) / (max_iter_ : ℚ)
    (toUint8 (9 * (1 - t) * t * t * t * 255),
     toUint8 (15 * (1 - t) * (1 - t) * t * t * 255),
     toUint8 (8.5 * (1 - t) * (1 - t) * (1 - t) * t * 255))
  else (0, 0, 0)

/-- The packed `Uint32` of line 50, `(255 << 24) | (r << 16) | (g << 8) | b`:
the `int` expression stored into a `Uint32`, that is, reduced modulo `2^32`. -/
def packARGB (r g b : Nat) : Nat :=
  ((255 <<< 24) ||| (r <<< 16) ||| (g <<< 8) ||| b) % 2 ^ 32

/-- The value stored for an iteration count (lines 43-50). -/
def colour (max_iter_ iter : Int) : Nat :=
  let rgb := channels max_iter_ iter
  packARGB rgb.1 rgb.2.1 rgb.2.2

/-- The start point `z(x0, y0)` of pixel `(px, py)` (lines 37-39). -/
def JuliaSet.pixelPoint (s : JuliaSet) (px py : Int) : Cplx :=
  let x0 := map px 0 s.width_ (-s.radius_) s.radius_
  let y0 := map py 0 s.height_ (-s.radius_ * s.height_ / s.width_)
    (s.radius_ * s.height_ / s.width_)
  ⟨x0, y0⟩

/-- The value written for pixel `(px, py)` (lines 37-50). -/
def JuliaSet.pixelValue (s : JuliaSet) (px py : Int) : Nat :=
  let iter := s.iterations (s.pixelPoint px py)
  colour s.max_iter_ iter

/-- The index `py * width_ + px` of line 50. -/
def JuliaSet.pixelIndex (s : JuliaSet) (px py : Int) : Nat :=
  (py * s.width_ + px).toNat

/-- The inner loop of `render` (lines 35-51) for the column `px`, acting on
the pixel buffer. -/
def JuliaSet.renderColumn (s : JuliaSet) (px : Nat) (buf : List Nat) : List Nat :=
  (List.range s.height_.toNat).foldl
    (fun b (py : Nat) => b.set (s.pixelIndex px py) (s.pixelValue px py)) buf

/-- The outer loop of `render` (lines 34-52), acting on the pixel buffer. -/
def JuliaSet.renderLoop (s : JuliaSet) (buf : List Nat) : List Nat :=
  (List.range s.width_.toNat).foldl (fun b (px : Nat) => s.renderColumn px b) buf

/-- Render the Julia set pixels (`JuliaSet::render`, lines 33-53). -/
def JuliaSet.render (s : JuliaSet) : JuliaSet :=
  { s with pixels_ := s.renderLoop s.pixels_ }

/-! ## Interaction -/

/-- Update parameter c based on mouse position (`JuliaSet::update_c`,
lines 56-60). -/
def JuliaSet.update_c (s : JuliaSet) (mouse_x mouse_y : Int) : JuliaSet :=
  let real_part := map mouse_x 0 s.width_ (-1) 1
  let imag_part := map mouse_y 0 s.height_ (-1) 1
  { s with c_ := ⟨real_part, imag_part⟩ }

/-- The setter `set_update_c` (line 72). -/
def JuliaSet.set_update_c (s : JuliaSet) (flag : Bool) : JuliaSet :=
  { s with update_c_ := flag }

/-- The getter `updating_c` (line 73). -/
def JuliaSet.updating_c (s : JuliaSet) : Bool := s.update_c_

/-- Key code `SDLK_ESCAPE` of SDL2 (`'\x1B'`). -/
def SDLK_ESCAPE : Int := 27

/-- Key code `SDLK_1` of SDL2 (`'1'`). -/
def SDLK_1 : Int := 49

/-- Key code `SDLK_SPACE` of SDL2 (`' '`). -/
def SDLK_SPACE : Int := 32

/-- An `SDL_Event` as far as the event switch of `main` reads it: the event
type, with the key code of a key press and the pointer position of a motion;
`other` is every event type the switch sends to `default`. -/
inductive Event where
  | quit
  | keyDown (sym : Int)
  | mouseMotion (x y : Int)
  | mouseButtonDown
  | other
deriving DecidableEq

/-- The state the event loop of `main` acts on: the engine and the local
`quit`. -/
structure App where
  julia : JuliaSet
  quit : Bool

/-- One pass through the `switch` of `main` (lines 130-153). -/
def handleEvent (a : App) : Event → App
  | .quit => { a with quit := true }
  | .keyDown sym =>
    if sym = SDLK_ESCAPE ∨ sym = SDLK_1 then { a with quit := true }
    else if sym = SDLK_SPACE then { a with julia := a.julia.set_update_c true }
    else a
  | .mouseMotion x y =>
    if a.julia.updating_c then { a with julia := a.julia.update_c x y } else a
  | .mouseButtonDown =>
    if a.julia.updating_c then { a with julia := a.julia.set_update_c false } else a
  | .other => a

/-- The inner `while (SDL_PollEvent(&event))` loop (lines 129-154) over the
pending events, oldest first. -/
def handleEvents (a : App) (events : List Event) : App :=
  events.foldl handleEvent a

/-! ## Construction -/

/-- The failure of the constructor: the `std::length_error` that
`std::vector` throws when asked for a negative number of entries (the `int`
product converted to the unsigned size type exceeds `max_size()`). -/
inductive ConstructError where
  | lengthError
deriving DecidableEq

/-- The value of an `int` expression whose exact value is `n`: `n` reduced to
32 bits in two's complement.  (Signed overflow is not defined by C++; the
usual targets wrap, and that is what is modelled.  A value that fits an `int`
is unchanged, see `wrapInt32_of_fits`.) -/
def wrapInt32 (n : Int) : Int :=
  (n + 2147483648) % 4294967296 - 2147483648

/-- The constructor `JuliaSet(int width, int height)` (lines 18-20): the
member initialisers, of which only `pixels_(width * height, 0)` can fail.
The product is an `int` product; a negative one, converted to the unsigned
size type, makes `std::vector` throw.  There is no test of `width` or
`height`.  (Running out of memory is not modelled.) -/
def JuliaSet.new (width height : Int) : Except ConstructError JuliaSet :=
  if wrapInt32 (width * height) < 0 then Except.error ConstructError.lengthError
  else Except.ok
    { width_ := width, height_ := height, max_iter_ := 300, radius_ := 2.0,
      c_ := ⟨0.282, -0.58⟩,
      pixels_ := List.replicate (wrapInt32 (width * height)).toNat 0,
      update_c_ := false }

/-- The indices `py * width_ + px` in the order `render` writes them
(line 50 inside the loops of lines 34-35). -/
def JuliaSet.writtenIndices (s : JuliaSet) : List Nat :=
  (List.range s.width_.toNat).flatMap
    (fun (px : Nat) => (List.range s.height_.toNat).map (fun (py : Nat) => s.pixelIndex px py))

/-! ## The title string -/

/-- Round a non-negative rational to the nearest natural number, a tie going
to the even neighbour (the rounding of `printf`). -/
def roundHalfEven (q : ℚ) : Nat :=
  let f : Nat := ⌊q⌋₊
  let r : ℚ := q - f
  if r < 1 / 2 then f
  else if 1 / 2 < r then f + 1
  else if f % 2 = 0 then f else f + 1

/-- The number of thousandths `printf` prints for `x` under `%.3f`: `|x|`
rounded to three decimals. -/
def thousandths (x : ℚ) : Nat :=
  roundHalfEven ((if x < 0 then -x else x) * 1000)

/-- The decimal digits of a natural number. -/
def decimalDigits (n : Nat) : List Char :=
  (Nat.toDigits 10 n)

/-- The characters of a fixed-point number with three decimals: the sign
(`-` for a negative value, `+` for the others when `plus` is set, as under
the flag of `%+.3f`), the integer part, a point, and three decimals. -/
def fixed3 (plus negative : Bool) (n : Nat) : List Char :=
  (if negative then ['-'] else if plus then ['+'] else []) ++
    decimalDigits (n / 1000) ++ ['.'] ++
    [Nat.digitChar (n / 100 % 10), Nat.digitChar (n / 10 % 10), Nat.digitChar (n % 10)]

/-- The conversion `%.3f` (`plus = false`) or `%+.3f` (`plus = true`) of
`printf` applied to `x`. -/
def formatFixed3 (plus : Bool) (x : ℚ) : List Char :=
  fixed3 plus (decide (x < 0)) (thousandths x)

/-- Get current c as string (`JuliaSet::c_string`, lines 66-70):
`snprintf(buffer, 64, "c = %.3f %+.3fi", c_.real(), c_.imag())`, which keeps
at most 63 characters. -/
def JuliaSet.c_string (s : JuliaSet) : String :=
  String.mk (("c = ".toList ++ formatFixed3 false s.c_.re ++ [' '] ++
    formatFixed3 true s.c_.im ++ ['i']).take 63)

/-- The engine used to instantiate the statements below at a concrete input:
a 4 x 3 image, at most 6 iterations, radius 2 and `c = (0.282, -0.58)`. -/
def sampleEngine : JuliaSet :=
  ⟨4, 3, 6, 2, ⟨0.282, -0.58⟩, List.replicate 12 0, false⟩

/-! ## Lemmas on the escape-time loop -/

theorem Cplx.absLe_iff (z : Cplx) (r : ℚ) :
    z.absLe r = true ↔ 0 ≤ r ∧ z.normSq ≤ r * r := by
  simp [Cplx.absLe]

/-- The rational test `absLe` is the comparison of the real modulus
`sqrt (re² + im²)` with `r`. -/
theorem Cplx.absLe_iff_sqrt_le (z : Cplx) (r : ℚ) :
    z.absLe r = true ↔
      Real.sqrt ((z.re : ℝ) * (z.re : ℝ) + (z.im : ℝ) * (z.im : ℝ)) ≤ (r : ℝ) := by
  rw [Cplx.absLe_iff]
  have hn : (0 : ℝ) ≤ (z.re : ℝ) * (z.re : ℝ) + (z.im : ℝ) * (z.im : ℝ) :=
    add_nonneg (mul_self_nonneg _) (mul_self_nonneg _)
  have hcast : ((z.normSq : ℚ) : ℝ) = (z.re : ℝ) * (z.re : ℝ) + (z.im : ℝ) * (z.im : ℝ) := by
    simp [Cplx.normSq]
  constructor
  · rintro ⟨h0, h1⟩
    have h0r : (0 : ℝ) ≤ (r : ℝ) := by exact_mod_cast h0
    have h1r : ((z.normSq : ℚ) : ℝ) ≤ (r : ℝ) * (r : ℝ) := by exact_mod_cast h1
    rw [hcast] at h1r
    rw [Real.sqrt_le_left h0r]
    nlinarith
  · intro h
    have h0r : (0 : ℝ) ≤ (r : ℝ) := le_trans (Real.sqrt_nonneg _) h
    refine ⟨by exact_mod_cast h0r, ?_⟩
    rw [Real.sqrt_le_left h0r] at h
    have : ((z.normSq : ℚ) : ℝ) ≤ (r : ℝ) * (r : ℝ) := by
      rw [hcast]; nlinarith
    exact_mod_cast this

theorem orbit_shift (c z : Cplx) (k : Nat) :
    orbit c (z * z + c) k = orbit c z (k + 1) := by
  induction k with
  | zero => rfl
  | succ k ih =>
    show orbit c (z * z + c) k * orbit c (z * z + c) k + c = _
    rw [ih]
    rfl

/-- What the loop returns from an intermediate state `(z, i)` when the fuel
covers the remaining budget. -/
theorem iterationsLoop_spec (radius_ : ℚ) (c_ : Cplx) (max_iter_ : Int) :
    ∀ (fuel : Nat) (z : Cplx) (i : Int), i ≤ max_iter_ → max_iter_ - i ≤ fuel →
      ∃ d : Nat, iterationsLoop radius_ c_ max_iter_ fuel z i = i + d ∧
        i + d ≤ max_iter_ ∧
        (∀ j : Nat, j < d → (orbit c_ z j).absLe radius_ = true) ∧
        (i + d < max_iter_ → (orbit c_ z d).absLe radius_ = false) := by
  intro fuel
  induction fuel with
  | zero =>
    intro z i h1 h2
    refine ⟨0, by simp [iterationsLoop], by simpa using h1, ?_, ?_⟩
    · intro j hj; omega
    · intro h; simp at h h2; omega
  | succ fuel ih =>
    intro z i h1 h2
    by_cases hz : z.absLe radius_ = true
    · by_cases hi : i < max_iter_
      · obtain ⟨d, hd1, hd2, hd3, hd4⟩ :=
          ih (z * z + c_) (i + 1) (by omega) (by push_cast at h2 ⊢; omega)
        refine ⟨d + 1, ?_, ?_, ?_, ?_⟩
        · simp only [iterationsLoop, hz, hi, decide_True, Bool.and_self, if_true]
          rw [hd1]; push_cast; ring
        · push_cast; omega
        · intro j hj
          cases j with
          | zero => exact hz
          | succ j =>
            rw [← orbit_shift]
            exact hd3 j (by omega)
        · intro h
          rw [← orbit_shift]
          exact hd4 (by push_cast at h; omega)
      · refine ⟨0, ?_, by simpa using h1, ?_, ?_⟩
        · simp [iterationsLoop, hz, hi]
        · intro j hj; omega
        · intro h; simp at h; omega
    · refine ⟨0, ?_, by simpa using h1, ?_, ?_⟩
      · simp [iterationsLoop, hz]
      · intro j hj; omega
      · intro _
        simpa using hz

/-- Fuel beyond the remaining budget is never used. -/
theorem iterationsLoop_fuel (radius_ : ℚ) (c_ : Cplx) (max_iter_ : Int) :
    ∀ (fuel extra : Nat) (z : Cplx) (i : Int), max_iter_ - i ≤ fuel →
      iterationsLoop radius_ c_ max_iter_ (fuel + extra) z i =
        iterationsLoop radius_ c_ max_iter_ fuel z i := by
  intro fuel
  induction fuel with
  | zero =>
    intro extra z i h
    have hi : ¬ i < max_iter_ := by simp at h; omega
    cases extra with
    | zero => rfl
    | succ e => simp [iterationsLoop, hi]
  | succ fuel ih =>
    intro extra z i h
    have : fuel + 1 + extra = (fuel + extra) + 1 := by omega
    rw [this]
    simp only [iterationsLoop]
    split
    · exact ih extra _ _ (by push_cast at h ⊢; omega)
    · rfl

/-! ## Lemmas on the render loops -/

section Buffer

variable {α β : Type} (idx : α → Nat) (val : α → β)

theorem foldl_set_length (l : List α) (buf : List β) :
    (l.foldl (fun b a => b.set (idx a) (val a)) buf).length = buf.length := by
  induction l generalizing buf with
  | nil => rfl
  | cons a t ih => simp [List.foldl_cons, ih]

/-- A position no step writes to keeps its entry. -/
theorem foldl_set_untouched (l : List α) (buf : List β) (k : Nat)
    (h : ∀ a ∈ l, idx a ≠ k) :
    (l.foldl (fun b a => b.set (idx a) (val a)) buf)[k]? = buf[k]? := by
  induction l generalizing buf with
  | nil => rfl
  | cons a t ih =>
    rw [List.foldl_cons, ih _ (fun b hb => h b (List.mem_cons_of_mem _ hb))]
    rw [List.getElem?_set]
    simp [h a (List.mem_cons_self _ _)]

/-- A position some step writes to ends with the value written there, when
all steps writing to that position write the same value. -/
theorem foldl_set_hit (l : List α) (buf : List β) (k : Nat) (v : β)
    (hex : ∃ a ∈ l, idx a = k) (hlt : k < buf.length)
    (hval : ∀ a ∈ l, idx a = k → val a = v) :
    (l.foldl (fun b a => b.set (idx a) (val a)) buf)[k]? = some v := by
  induction l generalizing buf with
  | nil =>
    obtain ⟨a, ha, _⟩ := hex
    cases ha
  | cons a t ih =>
    rw [List.foldl_cons]
    by_cases hmem : ∃ b ∈ t, idx b = k
    · exact ih _ hmem (by simpa using hlt)
        (fun a' ha' => hval a' (List.mem_cons_of_mem _ ha'))
    · have hnot : ∀ b ∈ t, idx b ≠ k := fun b hb hbi => hmem ⟨b, hb, hbi⟩
      rw [foldl_set_untouched idx val t _ _ hnot]
      obtain ⟨a0, ha0, hk⟩ := hex
      have ha : a0 = a := by
        rcases List.mem_cons.mp ha0 with h | h
        · exact h
        · exact absurd hk (hnot a0 h)
      subst ha
      rw [List.getElem?_set, ← hval a0 (List.mem_cons_self _ _) hk]
      simp [hk, hlt]

theorem foldl_flatMap_eq {γ δ : Type} (f : β → δ → β) (g : γ → List δ) (l : List γ) (b : β) :
    (l.flatMap g).foldl f b = l.foldl (fun acc a => (g a).foldl f acc) b := by
  induction l generalizing b with
  | nil => rfl
  | cons a t ih => simp [List.flatMap_cons, List.foldl_append, ih]

end Buffer

/-- All pixel coordinates in the order `render` visits them. -/
theorem renderLoop_eq_foldl (s : JuliaSet) (buf : List Nat) :
    s.renderLoop buf =
      (((List.range s.width_.toNat).flatMap
          (fun px => (List.range s.height_.toNat).map (fun py => (px, py)))).foldl
        (fun b (p : Nat × Nat) => b.set (s.pixelIndex p.1 p.2) (s.pixelValue p.1 p.2)) buf) := by
  rw [foldl_flatMap_eq]
  unfold JuliaSet.renderLoop JuliaSet.renderColumn
  simp [List.foldl_map]

theorem mem_pixelCoords (s : JuliaSet) (px py : Nat) :
    (px, py) ∈ (List.range s.width_.toNat).flatMap
        (fun px => (List.range s.height_.toNat).map (fun py => (px, py))) ↔
      (px : Int) < s.width_ ∧ (py : Int) < s.height_ := by
  simp only [List.mem_flatMap, List.mem_range, List.mem_map, Prod.mk.injEq]
  constructor
  · rintro ⟨a, ha, b, hb, rfl, rfl⟩
    omega
  · rintro ⟨h1, h2⟩
    exact ⟨px, by omega, py, by omega, rfl, rfl⟩

/-- Row-major indices of distinct pixels are distinct. -/
theorem pixelIndex_inj (s : JuliaSet) (px py px2 py2 : Nat)
    (h1 : (px : Int) < s.width_) (h2 : (px2 : Int) < s.width_)
    (h : s.pixelIndex px py = s.pixelIndex px2 py2) : px = px2 ∧ py = py2 := by
  unfold JuliaSet.pixelIndex at h
  have hw : (0 : Int) ≤ s.width_ := by omega
  have e1 : (0 : Int) ≤ (py : Int) * s.width_ + px := by positivity
  have e2 : (0 : Int) ≤ (py2 : Int) * s.width_ + px2 := by positivity
  have h3 : (py : Int) * s.width_ + px = (py2 : Int) * s.width_ + px2 := by omega
  have hpy : py = py2 := by
    rcases lt_trichotomy py py2 with hlt | heq | hgt
    · exfalso
      have : ((py : Int) + 1) * s.width_ ≤ (py2 : Int) * s.width_ :=
        mul_le_mul_of_nonneg_right (by omega) hw
      nlinarith
    · exact heq
    · exfalso
      have : ((py2 : Int) + 1) * s.width_ ≤ (py : Int) * s.width_ :=
        mul_le_mul_of_nonneg_right (by omega) hw
      nlinarith
  subst hpy
  exact ⟨by omega, rfl⟩

/-- The row-major index of a pixel of the image lies inside a buffer of
`width_ * height_` entries. -/
theorem pixelIndex_lt (s : JuliaSet) (px py : Nat)
    (h1 : (px : Int) < s.width_) (h2 : (py : Int) < s.height_) :
    s.pixelIndex px py < (s.width_ * s.height_).toNat := by
  unfold JuliaSet.pixelIndex
  have hw : (0 : Int) ≤ s.width_ := by omega
  have e1 : (0 : Int) ≤ (py : Int) * s.width_ + px := by positivity
  have : ((py : Int) + 1) * s.width_ ≤ s.height_ * s.width_ :=
    mul_le_mul_of_nonneg_right (by omega) hw
  have h3 : (py : Int) * s.width_ + px < s.width_ * s.height_ := by nlinarith
  omega

/-! ## Lemmas on the colouring -/

/-- With 8-bit channels the bitwise `or` of the shifted channels is the
positional sum. -/
theorem or_channels_eq (r g b : Nat) (hr : r < 256) (hg : g < 256) (hb : b < 256) :
    ((255 <<< 24) ||| (r <<< 16) ||| (g <<< 8) ||| b) =
      255 * 2 ^ 24 + r * 2 ^ 16 + g * 2 ^ 8 + b := by
  simp only [Nat.shiftLeft_eq]
  have e1 : 255 * 2 ^ 24 ||| r * 2 ^ 16 = 2 ^ 16 * (255 * 2 ^ 8 + r) := by
    have h := Nat.mul_add_lt_is_or (i := 24) (b := r * 2 ^ 16) (by omega) 255
    rw [show 255 * 2 ^ 24 = 2 ^ 24 * 255 by norm_num, ← h]
    omega
  have e2 : 2 ^ 16 * (255 * 2 ^ 8 + r) ||| g * 2 ^ 8 = 2 ^ 8 * (255 * 2 ^ 16 + r * 2 ^ 8 + g) := by
    have h := Nat.mul_add_lt_is_or (i := 16) (b := g * 2 ^ 8) (by omega) (255 * 2 ^ 8 + r)
    rw [← h]
    omega
  have e3 : 2 ^ 8 * (255 * 2 ^ 16 + r * 2 ^ 8 + g) ||| b =
      2 ^ 8 * (255 * 2 ^ 16 + r * 2 ^ 8 + g) + b :=
    (Nat.mul_add_lt_is_or (i := 8) (by omega) _).symm
  rw [e1, e2, e3]
  omega

/-- With 8-bit channels the packed pixel fits 32 bits and is the positional
sum. -/
theorem packARGB_eq (r g b : Nat) (hr : r < 256) (hg : g < 256) (hb : b < 256) :
    packARGB r g b = 255 * 2 ^ 24 + r * 2 ^ 16 + g * 2 ^ 8 + b := by
  unfold packARGB
  rw [or_channels_eq r g b hr hg hb]
  exact Nat.mod_eq_of_lt (by omega)

theorem toUint8_lt (x : ℚ) : toUint8 x < 256 := by
  unfold toUint8
  have := Int.emod_lt_of_pos (truncToInt x) (show (0 : Int) < 256 by norm_num)
  have := Int.emod_nonneg (truncToInt x) (show (256 : Int) ≠ 0 by norm_num)
  omega

/-- A value in `[0, 256)` is stored as its integer part: the 8-bit cast does
not wrap. -/
theorem toUint8_of_range (x : ℚ) (h0 : 0 ≤ x) (h1 : x < 256) :
    (toUint8 x : Int) = ⌊x⌋ := by
  unfold toUint8 truncToInt
  rw [if_pos h0]
  have hf0 : 0 ≤ ⌊x⌋ := Int.floor_nonneg.mpr h0
  have hf1 : ⌊x⌋ < 256 := Int.floor_lt.mpr (by exact_mod_cast h1)
  rw [Int.emod_eq_of_lt hf0 hf1]
  omega

theorem red_range (t : ℚ) (h0 : 0 ≤ t) (h1 : t ≤ 1) :
    0 ≤ 9 * (1 - t) * t * t * t * 255 ∧ 9 * (1 - t) * t * t * t * 255 ≤ 255 := by
  have e : 9 * (1 - t) * t * t * t * 255 =
      255 * (243 / 256 - 9 * ((t - 3 / 4) ^ 2 * (t ^ 2 + t / 2 + 3 / 16))) := by ring
  have hs : 0 ≤ (t - 3 / 4) ^ 2 * (t ^ 2 + t / 2 + 3 / 16) := by positivity
  constructor
  · have : 0 ≤ 1 - t := by linarith
    positivity
  · rw [e]; linarith

theorem green_range (t : ℚ) (h0 : 0 ≤ t) (h1 : t ≤ 1) :
    0 ≤ 15 * (1 - t) * (1 - t) * t * t * 255 ∧ 15 * (1 - t) * (1 - t) * t * t * 255 ≤ 255 := by
  have hu : 0 ≤ (1 - t) * t := mul_nonneg (by linarith) h0
  have e : 15 * (1 - t) * (1 - t) * t * t * 255 =
      255 * (15 / 16 - 15 * ((t - 1 / 2) ^ 2 * ((1 - t) * t + 1 / 4))) := by ring
  have hs : 0 ≤ (t - 1 / 2) ^ 2 * ((1 - t) * t + 1 / 4) := by positivity
  constructor
  · have : 0 ≤ 1 - t := by linarith
    positivity
  · rw [e]; linarith

theorem blue_range (t : ℚ) (h0 : 0 ≤ t) (h1 : t ≤ 1) :
    0 ≤ 8.5 * (1 - t) * (1 - t) * (1 - t) * t * 255 ∧
      8.5 * (1 - t) * (1 - t) * (1 - t) * t * 255 ≤ 255 := by
  have hu : 0 ≤ 1 - t := by linarith
  have e : 8.5 * (1 - t) * (1 - t) * (1 - t) * t * 255 =
      255 * (459 / 512 - 17 / 2 *
        (((1 - t) - 3 / 4) ^ 2 * ((1 - t) ^ 2 + (1 - t) / 2 + 3 / 16))) := by
    norm_num
    ring
  have hs : 0 ≤ ((1 - t) - 3 / 4) ^ 2 * ((1 - t) ^ 2 + (1 - t) / 2 + 3 / 16) := by positivity
  constructor
  · have : (0 : ℚ) ≤ 8.5 := by norm_num
    positivity
  · rw [e]; linarith

/-- The iteration ratio `t = iter / max_iter_` of a count below the cap lies
in `[0, 1)`. -/
theorem ratio_range (max_iter_ iter : Int) (h0 : 0 ≤ iter) (h1 : iter < max_iter_) :
    0 ≤ (iter : ℚ) / (max_iter_ : ℚ) ∧ (iter : ℚ) / (max_iter_ : ℚ) < 1 := by
  have hm : (0 : ℚ) < (max_iter_ : ℚ) := by exact_mod_cast (by omega : (0 : Int) < max_iter_)
  have hi : (0 : ℚ) ≤ (iter : ℚ) := by exact_mod_cast h0
  have hlt : (iter : ℚ) < (max_iter_ : ℚ) := by exact_mod_cast h1
  exact ⟨div_nonneg hi hm.le, (div_lt_one hm).mpr hlt⟩

/-! ## Escape-time iteration -/

/-- Claim C1. `JuliaSet::iterations` has escape-time semantics.  For a cap
`max_iter_ ≥ 0` and the orbit `z_0 = z0`, `z_{k+1} = z_k * z_k + c_`, the
returned `n` lies in `[0, max_iter_]`; `|z_k| ≤ radius_` for every `k < n`;
if `n < max_iter_` then `|z_n| > radius_`; `n` is at most every index
`k < max_iter_` with `|z_k| > radius_`, so it is the least such index, and it
is `max_iter_` when no index escapes; and `n = 0` exactly when
`|z0| > radius_` or `max_iter_ = 0`.  (`absLe z r = false` is the test
`|z| > r`.) -/
theorem iterations_escape_time (s : JuliaSet) (z0 : Cplx) (hmax : 0 ≤ s.max_iter_) :
    0 ≤ s.iterations z0 ∧ s.iterations z0 ≤ s.max_iter_ ∧
    (∀ k : Nat, (k : Int) < s.iterations z0 → (orbit s.c_ z0 k).absLe s.radius_ = true) ∧
    (s.iterations z0 < s.max_iter_ →
      (orbit s.c_ z0 (s.iterations z0).toNat).absLe s.radius_ = false) ∧
    (∀ k : Nat, (k : Int) < s.max_iter_ → (orbit s.c_ z0 k).absLe s.radius_ = false →
      s.iterations z0 ≤ k) ∧
    ((∀ k : Nat, (k : Int) < s.max_iter_ → (orbit s.c_ z0 k).absLe s.radius_ = true) →
      s.iterations z0 = s.max_iter_) ∧
    (s.iterations z0 = 0 ↔ (z0.absLe s.radius_ = false ∨ s.max_iter_ = 0)) := by
  obtain ⟨d, hd1, hd2, hd3, hd4⟩ :=
    iterationsLoop_spec s.radius_ s.c_ s.max_iter_ s.max_iter_.toNat z0 0 hmax (by omega)
  have hn : s.iterations z0 = d := by
    unfold JuliaSet.iterations
    rw [hd1]; simp
  rw [hn]
  simp only [zero_add] at hd2 hd4
  refine ⟨by omega, hd2, ?_, ?_, ?_, ?_, ?_⟩
  · intro k hk
    exact hd3 k (by omega)
  · intro h
    simpa using hd4 h
  · intro k _ hesc
    by_contra hlt
    have := hd3 k (by omega)
    rw [this] at hesc
    exact Bool.noConfusion hesc
  · intro hall
    by_contra hne
    have hlt : (d : Int) < s.max_iter_ := by omega
    have := hall d hlt
    rw [hd4 hlt] at this
    exact Bool.noConfusion this
  · constructor
    · intro h0
      have hd0 : d = 0 := by omega
      subst hd0
      by_cases hm : s.max_iter_ = 0
      · exact Or.inr hm
      · left
        have := hd4 (by omega)
        simpa [orbit] using this
    · rintro (h | h)
      · by_contra hne
        have := hd3 0 (by omega)
        simp only [orbit] at this
        rw [this] at h
        exact Bool.noConfusion h
      · omega

/-- Instance of C1 at `sampleEngine`, start point `(1, 1)`. -/
theorem iterations_escape_time_witness :
    (0 : Int) ≤ sampleEngine.max_iter_ ∧
    (0 ≤ sampleEngine.iterations ⟨1, 1⟩ ∧
      sampleEngine.iterations ⟨1, 1⟩ ≤ sampleEngine.max_iter_ ∧
    (∀ k : Nat, (k : Int) < sampleEngine.iterations ⟨1, 1⟩ →
      (orbit sampleEngine.c_ ⟨1, 1⟩ k).absLe sampleEngine.radius_ = true) ∧
    (sampleEngine.iterations ⟨1, 1⟩ < sampleEngine.max_iter_ →
      (orbit sampleEngine.c_ ⟨1, 1⟩ (sampleEngine.iterations ⟨1, 1⟩).toNat).absLe
        sampleEngine.radius_ = false) ∧
    (∀ k : Nat, (k : Int) < sampleEngine.max_iter_ →
      (orbit sampleEngine.c_ ⟨1, 1⟩ k).absLe sampleEngine.radius_ = false →
      sampleEngine.iterations ⟨1, 1⟩ ≤ k) ∧
    ((∀ k : Nat, (k : Int) < sampleEngine.max_iter_ →
      (orbit sampleEngine.c_ ⟨1, 1⟩ k).absLe sampleEngine.radius_ = true) →
      sampleEngine.iterations ⟨1, 1⟩ = sampleEngine.max_iter_) ∧
    (sampleEngine.iterations ⟨1, 1⟩ = 0 ↔
      ((⟨1, 1⟩ : Cplx).absLe sampleEngine.radius_ = false ∨ sampleEngine.max_iter_ = 0))) :=
  ⟨by decide, iterations_escape_time sampleEngine ⟨1, 1⟩ (by decide)⟩

/-- Claim C2. For a cap `max_iter_ ≥ 0`, `JuliaSet::iterations` returns a value
`i` with `0 ≤ i ≤ max_iter_`, and it terminates within `max_iter_` passes of
the loop: running the loop with any larger budget of passes gives the same
value. -/
theorem iterations_bounded (s : JuliaSet) (z0 : Cplx) (hmax : 0 ≤ s.max_iter_) :
    0 ≤ s.iterations z0 ∧ s.iterations z0 ≤ s.max_iter_ ∧
    ∀ extra : Nat,
      iterationsLoop s.radius_ s.c_ s.max_iter_ (s.max_iter_.toNat + extra) z0 0 =
        s.iterations z0 := by
  obtain ⟨d, hd1, hd2, -, -⟩ :=
    iterationsLoop_spec s.radius_ s.c_ s.max_iter_ s.max_iter_.toNat z0 0 hmax (by omega)
  have hn : s.iterations z0 = d := by
    unfold JuliaSet.iterations
    rw [hd1]; simp
  refine ⟨by omega, by simpa [hn] using hd2, ?_⟩
  intro extra
  exact iterationsLoop_fuel s.radius_ s.c_ s.max_iter_ s.max_iter_.toNat extra z0 0 (by omega)

/-- Instance of C2 at `sampleEngine`, start point `(0, 0)`. -/
theorem iterations_bounded_witness :
    (0 : Int) ≤ sampleEngine.max_iter_ ∧
    (0 ≤ sampleEngine.iterations ⟨0, 0⟩ ∧
      sampleEngine.iterations ⟨0, 0⟩ ≤ sampleEngine.max_iter_ ∧
    ∀ extra : Nat,
      iterationsLoop sampleEngine.radius_ sampleEngine.c_ sampleEngine.max_iter_
        (sampleEngine.max_iter_.toNat + extra) ⟨0, 0⟩ 0 = sampleEngine.iterations ⟨0, 0⟩) :=
  ⟨by decide, iterations_bounded sampleEngine ⟨0, 0⟩ (by decide)⟩

/-! ## Rendering -/

/-- Claim C4 as stated fails. For `iter = 100`, `max_iter_ = 300` the palette
value of the red channel is `170/3 = 56.67`; rounding to nearest gives 57,
the cast of line 46 stores 56. -/
theorem channels_round_counterexample :
    ((channels 300 100).1 : Int) = 56 ∧
    round ((9 : ℚ) * (1 - 100 / 300) * (100 / 300) ^ 3 * 255) = 57 ∧
    ((channels 300 100).1 : Int) ≠
      round ((9 : ℚ) * (1 - 100 / 300) * (100 / 300) ^ 3 * 255) := by
  have h1 : ((channels 300 100).1 : Int) = 56 := by
    unfold channels
    norm_num [toUint8, truncToInt]
  have h2 : round ((9 : ℚ) * (1 - 100 / 300) * (100 / 300) ^ 3 * 255) = 57 := by
    rw [round_eq, Int.floor_eq_iff]
    norm_num
  refine ⟨h1, h2, ?_⟩
  rw [h1, h2]
  decide

/-- Claim C4, amended. For every `iter` with `0 ≤ iter < max_iter_` and
`t = iter / max_iter_`, the channels computed by `render` are the palette
values with the fractional part dropped (rounded down, not to nearest):
`R = ⌊9 (1-t) t³ 255⌋`, `G = ⌊15 (1-t)² t² 255⌋`, `B = ⌊8.5 (1-t)³ t 255⌋`. -/
theorem channels_truncate (max_iter_ iter : Int) (h0 : 0 ≤ iter) (h1 : iter < max_iter_) :
    ((channels max_iter_ iter).1 : Int) =
      ⌊9 * (1 - (iter : ℚ) / max_iter_) * ((iter : ℚ) / max_iter_) ^ 3 * 255⌋ ∧
    ((channels max_iter_ iter).2.1 : Int) =
      ⌊15 * (1 - (iter : ℚ) / max_iter_) ^ 2 * ((iter : ℚ) / max_iter_) ^ 2 * 255⌋ ∧
    ((channels max_iter_ iter).2.2 : Int) =
      ⌊8.5 * (1 - (iter : ℚ) / max_iter_) ^ 3 * ((iter : ℚ) / max_iter_) * 255⌋ := by
  obtain ⟨ht0, ht1⟩ := ratio_range max_iter_ iter h0 h1
  generalize ht : (iter : ℚ) / (max_iter_ : ℚ) = t at ht0 ht1
  have hR := red_range t ht0 ht1.le
  have hG := green_range t ht0 ht1.le
  have hB := blue_range t ht0 ht1.le
  have hch : channels max_iter_ iter =
      (toUint8 (9 * (1 - t) * t * t * t * 255),
       toUint8 (15 * (1 - t) * (1 - t) * t * t * 255),
       toUint8 (8.5 * (1 - t) * (1 - t) * (1 - t) * t * 255)) := by
    unfold channels
    rw [if_pos h1]
    simp only [ht]
  rw [hch]
  refine ⟨?_, ?_, ?_⟩
  · show (toUint8 (9 * (1 - t) * t * t * t * 255) : Int) = _
    rw [toUint8_of_range _ hR.1 (by linarith)]
    congr 1; ring
  · show (toUint8 (15 * (1 - t) * (1 - t) * t * t * 255) : Int) = _
    rw [toUint8_of_range _ hG.1 (by linarith)]
    congr 1; ring
  · show (toUint8 (8.5 * (1 - t) * (1 - t) * (1 - t) * t * 255) : Int) = _
    rw [toUint8_of_range _ hB.1 (by linarith)]
    congr 1; ring

/-- Instance of the amended C4 at `iter = 100`, `max_iter_ = 300`. -/
theorem channels_truncate_witness :
    ((0 : Int) ≤ 100 ∧ (100 : Int) < 300) ∧
    (((channels 300 100).1 : Int) =
      ⌊9 * (1 - ((100 : Int) : ℚ) / (300 : Int)) * (((100 : Int) : ℚ) / (300 : Int)) ^ 3 * 255⌋ ∧
    ((channels 300 100).2.1 : Int) =
      ⌊15 * (1 - ((100 : Int) : ℚ) / (300 : Int)) ^ 2 *
        (((100 : Int) : ℚ) / (300 : Int)) ^ 2 * 255⌋ ∧
    ((channels 300 100).2.2 : Int) =
      ⌊8.5 * (1 - ((100 : Int) : ℚ) / (300 : Int)) ^ 3 *
        (((100 : Int) : ℚ) / (300 : Int)) * 255⌋) :=
  ⟨⟨by decide, by decide⟩, channels_truncate 300 100 (by decide) (by decide)⟩

/-- Claim C5. The value `render` writes for a pixel is `colour max_iter_ iter`,
a function of the iteration count and the cap only: two pixels, of any two
engines, with equal caps and equal counts get the same packed value.  When
`iter = max_iter_` that value is `0xFF000000` (opaque black). -/
theorem colour_deterministic_black :
    (∀ (s : JuliaSet) (px py : Int),
      s.pixelValue px py = colour s.max_iter_ (s.iterations (s.pixelPoint px py))) ∧
    (∀ (s1 s2 : JuliaSet) (px1 py1 px2 py2 : Int), s1.max_iter_ = s2.max_iter_ →
      s1.iterations (s1.pixelPoint px1 py1) = s2.iterations (s2.pixelPoint px2 py2) →
      s1.pixelValue px1 py1 = s2.pixelValue px2 py2) ∧
    (∀ max_iter_ : Int, colour max_iter_ max_iter_ = 0xFF000000) ∧
    (∀ (s : JuliaSet) (px py : Int), s.iterations (s.pixelPoint px py) = s.max_iter_ →
      s.pixelValue px py = 0xFF000000) := by
  have hblack : ∀ max_iter_ : Int, colour max_iter_ max_iter_ = 0xFF000000 := by
    intro m
    have hch : channels m m = (0, 0, 0) := by
      unfold channels
      rw [if_neg (lt_irrefl m)]
    unfold colour
    rw [hch]
    decide
  refine ⟨fun _ _ _ => rfl, ?_, hblack, ?_⟩
  · intro s1 s2 px1 py1 px2 py2 hm hi
    unfold JuliaSet.pixelValue
    rw [hm, hi]
  · intro s px py h
    unfold JuliaSet.pixelValue
    rw [h]
    exact hblack _

/-- Claim C6. For `0 ≤ iter < max_iter_` (so `max_iter_ > 0`), with
`t = iter / max_iter_`, each of the three palette values lies in `[0, 255]`
before the conversion to 8 bits; the channel stored is the integer part of
the value clamped to `[0, 255]`, so the cast does not wrap; and the pixel is
`(255 << 24) | (R << 16) | (G << 8) | B`, whose top byte (alpha) is 255. -/
theorem channels_in_range_packed (max_iter_ iter : Int)
    (h0 : 0 ≤ iter) (h1 : iter < max_iter_) :
    (0 ≤ 9 * (1 - (iter : ℚ) / max_iter_) * ((iter : ℚ) / max_iter_) ^ 3 * 255 ∧
      9 * (1 - (iter : ℚ) / max_iter_) * ((iter : ℚ) / max_iter_) ^ 3 * 255 ≤ 255) ∧
    (0 ≤ 15 * (1 - (iter : ℚ) / max_iter_) ^ 2 * ((iter : ℚ) / max_iter_) ^ 2 * 255 ∧
      15 * (1 - (iter : ℚ) / max_iter_) ^ 2 * ((iter : ℚ) / max_iter_) ^ 2 * 255 ≤ 255) ∧
    (0 ≤ 8.5 * (1 - (iter : ℚ) / max_iter_) ^ 3 * ((iter : ℚ) / max_iter_) * 255 ∧
      8.5 * (1 - (iter : ℚ) / max_iter_) ^ 3 * ((iter : ℚ) / max_iter_) * 255 ≤ 255) ∧
    ((channels max_iter_ iter).1 : Int) =
      ⌊max 0 (min 255
        (9 * (1 - (iter : ℚ) / max_iter_) * ((iter : ℚ) / max_iter_) ^ 3 * 255))⌋ ∧
    ((channels max_iter_ iter).2.1 : Int) =
      ⌊max 0 (min 255
        (15 * (1 - (iter : ℚ) / max_iter_) ^ 2 * ((iter : ℚ) / max_iter_) ^ 2 * 255))⌋ ∧
    ((channels max_iter_ iter).2.2 : Int) =
      ⌊max 0 (min 255
        (8.5 * (1 - (iter : ℚ) / max_iter_) ^ 3 * ((iter : ℚ) / max_iter_) * 255))⌋ ∧
    colour max_iter_ iter =
      ((255 <<< 24) ||| ((channels max_iter_ iter).1 <<< 16) |||
        ((channels max_iter_ iter).2.1 <<< 8) ||| (channels max_iter_ iter).2.2) ∧
    colour max_iter_ iter >>> 24 = 255 := by
  obtain ⟨ht0, ht1⟩ := ratio_range max_iter_ iter h0 h1
  generalize ht : (iter : ℚ) / (max_iter_ : ℚ) = t at ht0 ht1
  have hR := red_range t ht0 ht1.le
  have hG := green_range t ht0 ht1.le
  have hB := blue_range t ht0 ht1.le
  have eR : 9 * (1 - t) * t ^ 3 * 255 = 9 * (1 - t) * t * t * t * 255 := by ring
  have eG : 15 * (1 - t) ^ 2 * t ^ 2 * 255 = 15 * (1 - t) * (1 - t) * t * t * 255 := by ring
  have eB : 8.5 * (1 - t) ^ 3 * t * 255 = 8.5 * (1 - t) * (1 - t) * (1 - t) * t * 255 := by ring
  have hch : channels max_iter_ iter =
      (toUint8 (9 * (1 - t) * t * t * t * 255),
       toUint8 (15 * (1 - t) * (1 - t) * t * t * 255),
       toUint8 (8.5 * (1 - t) * (1 - t) * (1 - t) * t * 255)) := by
    unfold channels
    rw [if_pos h1]
    simp only [ht]
  have hpack : colour max_iter_ iter =
      255 * 2 ^ 24 + (channels max_iter_ iter).1 * 2 ^ 16 +
        (channels max_iter_ iter).2.1 * 2 ^ 8 + (channels max_iter_ iter).2.2 := by
    unfold colour
    rw [hch]
    exact packARGB_eq _ _ _ (toUint8_lt _) (toUint8_lt _) (toUint8_lt _)
  rw [eR, eG, eB]
  refine ⟨hR, hG, hB, ?_, ?_, ?_, ?_, ?_⟩
  · rw [min_eq_right hR.2, max_eq_right hR.1, hch]
    exact toUint8_of_range _ hR.1 (by linarith)
  · rw [min_eq_right hG.2, max_eq_right hG.1, hch]
    exact toUint8_of_range _ hG.1 (by linarith)
  · rw [min_eq_right hB.2, max_eq_right hB.1, hch]
    exact toUint8_of_range _ hB.1 (by linarith)
  · rw [hpack, or_channels_eq _ _ _ (by rw [hch]; exact toUint8_lt _)
      (by rw [hch]; exact toUint8_lt _) (by rw [hch]; exact toUint8_lt _)]
  · rw [hpack, Nat.shiftRight_eq_div_pow]
    have a1 := toUint8_lt (9 * (1 - t) * t * t * t * 255)
    have a2 := toUint8_lt (15 * (1 - t) * (1 - t) * t * t * 255)
    have a3 := toUint8_lt (8.5 * (1 - t) * (1 - t) * (1 - t) * t * 255)
    rw [hch]
    simp only
    omega

/-- Instance of C6 at `iter = 2`, `max_iter_ = 6`. -/
theorem channels_in_range_packed_witness :
    ((0 : Int) ≤ 2 ∧ (2 : Int) < 6) ∧
    colour 6 2 = ((255 <<< 24) ||| ((channels 6 2).1 <<< 16) |||
        ((channels 6 2).2.1 <<< 8) ||| (channels 6 2).2.2) ∧
    colour 6 2 >>> 24 = 255 :=
  ⟨⟨by decide, by decide⟩,
    (channels_in_range_packed 6 2 (by decide) (by decide)).2.2.2.2.2.2⟩

/-! ## Pixel to complex plane -/

/-- Claim C7. Boundary mapping.  For `width_ > 0`, `height_ > 0` and radius `r`,
`map(0, 0, W, -r, r) = -r` and `map(W, 0, W, -r, r) = r`, likewise on the
imaginary axis with the bounds `∓ r * H / W`; so `render` maps the pixel
`(0, 0)` to `(-r, -r * H / W)` and `(W, H)` to `(r, r * H / W)`. -/
theorem pixelPoint_boundary (s : JuliaSet) (hW : 0 < s.width_) (hH : 0 < s.height_) :
    map 0 0 s.width_ (-s.radius_) s.radius_ = -s.radius_ ∧
    map s.width_ 0 s.width_ (-s.radius_) s.radius_ = s.radius_ ∧
    map 0 0 s.height_ (-s.radius_ * s.height_ / s.width_) (s.radius_ * s.height_ / s.width_) =
      -s.radius_ * s.height_ / s.width_ ∧
    map s.height_ 0 s.height_ (-s.radius_ * s.height_ / s.width_)
        (s.radius_ * s.height_ / s.width_) = s.radius_ * s.height_ / s.width_ ∧
    s.pixelPoint 0 0 = ⟨-s.radius_, -s.radius_ * s.height_ / s.width_⟩ ∧
    s.pixelPoint s.width_ s.height_ = ⟨s.radius_, s.radius_ * s.height_ / s.width_⟩ := by
  have hw : (s.width_ : ℚ) ≠ 0 := by exact_mod_cast hW.ne'
  have hh : (s.height_ : ℚ) ≠ 0 := by exact_mod_cast hH.ne'
  have m0 : ∀ (n lo hi : ℚ), map 0 0 n lo hi = lo := by
    intro n lo hi
    simp [map]
  have m1 : ∀ (n lo hi : ℚ), n ≠ 0 → map n 0 n lo hi = hi := by
    intro n lo hi hn
    simp [map, hn]
  refine ⟨m0 _ _ _, m1 _ _ _ hw, m0 _ _ _, m1 _ _ _ hh, ?_, ?_⟩
  · simp only [JuliaSet.pixelPoint, Int.cast_zero, m0]
  · simp only [JuliaSet.pixelPoint, m1 _ _ _ hw, m1 _ _ _ hh]

/-- Instance of C7 at `sampleEngine` (4 x 3, radius 2). -/
theorem pixelPoint_boundary_witness :
    ((0 : Int) < sampleEngine.width_ ∧ (0 : Int) < sampleEngine.height_) ∧
    sampleEngine.pixelPoint 0 0 =
      ⟨-sampleEngine.radius_, -sampleEngine.radius_ * sampleEngine.height_ / sampleEngine.width_⟩ ∧
    sampleEngine.pixelPoint sampleEngine.width_ sampleEngine.height_ =
      ⟨sampleEngine.radius_, sampleEngine.radius_ * sampleEngine.height_ / sampleEngine.width_⟩ :=
  ⟨⟨by decide, by decide⟩,
    (pixelPoint_boundary sampleEngine (by decide) (by decide)).2.2.2.2⟩

/-! ## Interaction -/

/-- Claim C8. Starting with tracking off and any `c_` (indeed from any state of
the application), the events
`[KeyDown(space), MouseMotion(x1,y1), MouseMotion(x2,y2), MouseButtonDown]`
end with tracking off and `c_ = (map(x2,0,width_,-1,1), map(y2,0,height_,-1,1))`,
whatever `(x1,y1)` and the original `c_` were: it differs from the mapping of
`(x1,y1)` and from the original `c_` whenever those differ from the mapping
of `(x2,y2)`. -/
theorem tracking_sequence (a : App) (x1 y1 x2 y2 : Int) :
    (handleEvents a [Event.keyDown SDLK_SPACE, Event.mouseMotion x1 y1,
        Event.mouseMotion x2 y2, Event.mouseButtonDown]).julia.updating_c = false ∧
    (handleEvents a [Event.keyDown SDLK_SPACE, Event.mouseMotion x1 y1,
        Event.mouseMotion x2 y2, Event.mouseButtonDown]).julia.c_ =
      ⟨map x2 0 a.julia.width_ (-1) 1, map y2 0 a.julia.height_ (-1) 1⟩ ∧
    ((⟨map x1 0 a.julia.width_ (-1) 1, map y1 0 a.julia.height_ (-1) 1⟩ : Cplx) ≠
        ⟨map x2 0 a.julia.width_ (-1) 1, map y2 0 a.julia.height_ (-1) 1⟩ →
      (handleEvents a [Event.keyDown SDLK_SPACE, Event.mouseMotion x1 y1,
        Event.mouseMotion x2 y2, Event.mouseButtonDown]).julia.c_ ≠
        ⟨map x1 0 a.julia.width_ (-1) 1, map y1 0 a.julia.height_ (-1) 1⟩) ∧
    (a.julia.c_ ≠ ⟨map x2 0 a.julia.width_ (-1) 1, map y2 0 a.julia.height_ (-1) 1⟩ →
      (handleEvents a [Event.keyDown SDLK_SPACE, Event.mouseMotion x1 y1,
        Event.mouseMotion x2 y2, Event.mouseButtonDown]).julia.c_ ≠ a.julia.c_) := by
  have hrun : (handleEvents a [Event.keyDown SDLK_SPACE, Event.mouseMotion x1 y1,
        Event.mouseMotion x2 y2, Event.mouseButtonDown]).julia =
      { a.julia with
        c_ := ⟨map x2 0 a.julia.width_ (-1) 1, map y2 0 a.julia.height_ (-1) 1⟩,
        update_c_ := false } := by
    simp [handleEvents, handleEvent, SDLK_SPACE, SDLK_ESCAPE, SDLK_1, JuliaSet.updating_c,
      JuliaSet.set_update_c, JuliaSet.update_c]
  rw [hrun]
  refine ⟨rfl, rfl, ?_, ?_⟩
  · intro h
    exact fun e => h e.symm
  · intro h
    exact fun e => h e.symm

/-- Instance of C8 at `sampleEngine`, pointer at `(1, 1)` and then `(3, 2)`. -/
theorem tracking_sequence_witness :
    (App.mk sampleEngine false).julia.updating_c = false ∧
    (handleEvents (App.mk sampleEngine false) [Event.keyDown SDLK_SPACE,
        Event.mouseMotion 1 1, Event.mouseMotion 3 2,
        Event.mouseButtonDown]).julia.updating_c = false ∧
    (handleEvents (App.mk sampleEngine false) [Event.keyDown SDLK_SPACE,
        Event.mouseMotion 1 1, Event.mouseMotion 3 2, Event.mouseButtonDown]).julia.c_ =
      ⟨map (3 : Int) 0 sampleEngine.width_ (-1) 1, map (2 : Int) 0 sampleEngine.height_ (-1) 1⟩ :=
  ⟨rfl, (tracking_sequence (App.mk sampleEngine false) 1 1 3 2).1,
    (tracking_sequence (App.mk sampleEngine false) 1 1 3 2).2.1⟩

/-- Claim C9. Every event other than the three transitions (the activation key
while idle, a pointer move while tracking, a button press while tracking)
leaves the tracking flag and `c_` unchanged, indeed the whole engine: in
particular a pointer move or a button press while idle, and an unrecognised
key or any other event in either state. -/
theorem handleEvent_frame (a : App) (e : Event)
    (hnot : ¬ ((e = Event.keyDown SDLK_SPACE ∧ a.julia.updating_c = false) ∨
      ((∃ x y, e = Event.mouseMotion x y) ∧ a.julia.updating_c = true) ∨
      (e = Event.mouseButtonDown ∧ a.julia.updating_c = true))) :
    (handleEvent a e).julia.updating_c = a.julia.updating_c ∧
    (handleEvent a e).julia.c_ = a.julia.c_ ∧
    (handleEvent a e).julia = a.julia := by
  have key : (handleEvent a e).julia = a.julia := by
    cases e with
    | quit => rfl
    | other => rfl
    | keyDown sym =>
      simp only [handleEvent]
      split
      · rfl
      · split
        · rename_i hs
          subst hs
          cases hu : a.julia.updating_c with
          | false => exact absurd (Or.inl ⟨rfl, hu⟩) hnot
          | true =>
            simp only [JuliaSet.updating_c] at hu
            simp [JuliaSet.set_update_c, ← hu]
        · rfl
    | mouseMotion x y =>
      simp only [handleEvent]
      split
      · rename_i hu
        exact absurd (Or.inr (Or.inl ⟨⟨x, y, rfl⟩, hu⟩)) hnot
      · rfl
    | mouseButtonDown =>
      simp only [handleEvent]
      split
      · rename_i hu
        exact absurd (Or.inr (Or.inr ⟨rfl, hu⟩)) hnot
      · rfl
  rw [key]
  exact ⟨rfl, rfl, rfl⟩

/-- Instance of C9: a pointer move while idle. -/
theorem handleEvent_frame_witness :
    ¬ ((Event.mouseMotion 3 2 = Event.keyDown SDLK_SPACE ∧
        (App.mk sampleEngine false).julia.updating_c = false) ∨
      ((∃ x y, Event.mouseMotion 3 2 = Event.mouseMotion x y) ∧
        (App.mk sampleEngine false).julia.updating_c = true) ∨
      (Event.mouseMotion 3 2 = Event.mouseButtonDown ∧
        (App.mk sampleEngine false).julia.updating_c = true)) ∧
    (handleEvent (App.mk sampleEngine false) (Event.mouseMotion 3 2)).julia.updating_c =
      (App.mk sampleEngine false).julia.updating_c ∧
    (handleEvent (App.mk sampleEngine false) (Event.mouseMotion 3 2)).julia.c_ =
      (App.mk sampleEngine false).julia.c_ :=
  have h : ¬ ((Event.mouseMotion 3 2 = Event.keyDown SDLK_SPACE ∧
        (App.mk sampleEngine false).julia.updating_c = false) ∨
      ((∃ x y, Event.mouseMotion 3 2 = Event.mouseMotion x y) ∧
        (App.mk sampleEngine false).julia.updating_c = true) ∨
      (Event.mouseMotion 3 2 = Event.mouseButtonDown ∧
        (App.mk sampleEngine false).julia.updating_c = true)) := by
    simp [JuliaSet.updating_c, sampleEngine]
  ⟨h, (handleEvent_frame _ _ h).1, (handleEvent_frame _ _ h).2.1⟩

/-- Claim C10 as stated fails at the pointer position `(4, 0)` of the 4 x 3
engine: `x = 4 = width_` is outside `[0, width_)`, yet the new `c_` is
`(1, -1)`, both parts inside `[-1, 1]`. -/
theorem update_c_boundary_counterexample :
    ¬ ((4 : Int) < sampleEngine.width_) ∧
    (sampleEngine.update_c 4 0).c_ = ⟨1, -1⟩ ∧
    (-1 ≤ (sampleEngine.update_c 4 0).c_.re ∧ (sampleEngine.update_c 4 0).c_.re ≤ 1) ∧
    (-1 ≤ (sampleEngine.update_c 4 0).c_.im ∧ (sampleEngine.update_c 4 0).c_.im ≤ 1) := by
  have h : (sampleEngine.update_c 4 0).c_ = ⟨1, -1⟩ := by
    simp only [JuliaSet.update_c, sampleEngine, map]
    norm_num
  rw [h]
  refine ⟨by decide, rfl, ?_, ?_⟩ <;> norm_num

/-- Claim C10, amended. For an engine with positive `width_` and `height_` and
every integer pointer position `(x, y)`, in range or not, `update_c` sets `c_`
to exactly `(-1 + 2 x / width_, -1 + 2 y / height_)`, whatever the escape
radius, and changes nothing else.  For `0 ≤ x < width_` the real part lies in
`[-1, 1]`, for `0 ≤ y < height_` the imaginary part does.  The real part lies
outside `[-1, 1]` exactly when `x < 0` or `x > width_` (at `x = 2 * width_` it
is 3), the imaginary part exactly when `y < 0` or `y > height_`; the positions
`x = width_`, `y = height_` map to exactly 1. -/
theorem update_c_exact (s : JuliaSet) (x y : Int) (hW : 0 < s.width_) (hH : 0 < s.height_) :
    (s.update_c x y).c_ = ⟨-1 + 2 * x / s.width_, -1 + 2 * y / s.height_⟩ ∧
    (∀ r : ℚ, ({ s with radius_ := r }.update_c x y).c_ = (s.update_c x y).c_) ∧
    s.update_c x y = { s with c_ := (s.update_c x y).c_ } ∧
    (0 ≤ x → x < s.width_ →
      -1 ≤ (s.update_c x y).c_.re ∧ (s.update_c x y).c_.re ≤ 1) ∧
    (0 ≤ y → y < s.height_ →
      -1 ≤ (s.update_c x y).c_.im ∧ (s.update_c x y).c_.im ≤ 1) ∧
    ((x < 0 ∨ s.width_ < x) ↔
      ((s.update_c x y).c_.re < -1 ∨ 1 < (s.update_c x y).c_.re)) ∧
    ((y < 0 ∨ s.height_ < y) ↔
      ((s.update_c x y).c_.im < -1 ∨ 1 < (s.update_c x y).c_.im)) ∧
    (s.update_c (2 * s.width_) y).c_.re = 3 ∧
    (s.update_c s.width_ y).c_.re = 1 ∧
    (s.update_c x s.height_).c_.im = 1 := by
  have hw : (0 : ℚ) < (s.width_ : ℚ) := by exact_mod_cast hW
  have hh : (0 : ℚ) < (s.height_ : ℚ) := by exact_mod_cast hH
  have hmap : ∀ (v n : ℚ), map v 0 n (-1) 1 = -1 + 2 * v / n := by
    intro v n
    simp only [map]
    ring
  have hc : ∀ (u v : Int),
      (s.update_c u v).c_ = ⟨-1 + 2 * u / s.width_, -1 + 2 * v / s.height_⟩ := by
    intro u v
    simp only [JuliaSet.update_c, hmap]
  have hlow : ∀ (v : Int) (n : ℚ), 0 < n → (-1 + 2 * (v : ℚ) / n < -1 ↔ v < 0) := by
    intro v n hn
    rw [show -1 + 2 * (v : ℚ) / n < -1 ↔ 2 * (v : ℚ) / n < 0 by constructor <;> intro h <;> linarith]
    rw [div_lt_iff₀ hn, zero_mul]
    constructor
    · intro h
      have : (v : ℚ) < 0 := by linarith
      exact_mod_cast this
    · intro h
      have : (v : ℚ) < 0 := by exact_mod_cast h
      linarith
  have hhigh : ∀ (v n : Int), (0 : ℚ) < (n : ℚ) → (1 < -1 + 2 * (v : ℚ) / n ↔ n < v) := by
    intro v n hn
    rw [show 1 < -1 + 2 * (v : ℚ) / n ↔ 2 < 2 * (v : ℚ) / n by constructor <;> intro h <;> linarith]
    rw [lt_div_iff₀ hn]
    constructor
    · intro h
      have : (n : ℚ) < (v : ℚ) := by linarith
      exact_mod_cast this
    · intro h
      have : (n : ℚ) < (v : ℚ) := by exact_mod_cast h
      linarith
  refine ⟨hc x y, fun r => rfl, rfl, ?_, ?_, ?_, ?_, ?_, ?_, ?_⟩
  · intro h0 h1
    rw [hc]
    have a1 := (hlow x _ hw).not
    have a2 := (hhigh x _ hw).not
    exact ⟨not_lt.mp (a1.mpr (by omega)), not_lt.mp (a2.mpr (by omega))⟩
  · intro h0 h1
    rw [hc]
    have a1 := (hlow y _ hh).not
    have a2 := (hhigh y _ hh).not
    exact ⟨not_lt.mp (a1.mpr (by omega)), not_lt.mp (a2.mpr (by omega))⟩
  · rw [hc]
    exact (or_congr (hlow x _ hw) (hhigh x _ hw)).symm
  · rw [hc]
    exact (or_congr (hlow y _ hh) (hhigh y _ hh)).symm
  · rw [hc]
    show -1 + 2 * (((2 * s.width_ : Int) : ℚ)) / (s.width_ : ℚ) = 3
    push_cast
    field_simp
    ring
  · rw [hc]
    show -1 + 2 * (s.width_ : ℚ) / (s.width_ : ℚ) = 1
    field_simp
    ring
  · rw [hc]
    show -1 + 2 * (s.height_ : ℚ) / (s.height_ : ℚ) = 1
    field_simp
    ring

/-- Instance of the amended C10 at `sampleEngine`, pointer at `(8, 1)`: the
position `x = 8 = 2 * width_` gives the real part 3. -/
theorem update_c_exact_witness :
    ((0 : Int) < sampleEngine.width_ ∧ (0 : Int) < sampleEngine.height_) ∧
    (sampleEngine.update_c 8 1).c_ =
      ⟨-1 + 2 * (8 : Int) / sampleEngine.width_, -1 + 2 * (1 : Int) / sampleEngine.height_⟩ ∧
    (((8 : Int) < 0 ∨ sampleEngine.width_ < 8) ↔
      ((sampleEngine.update_c 8 1).c_.re < -1 ∨ 1 < (sampleEngine.update_c 8 1).c_.re)) :=
  ⟨⟨by decide, by decide⟩, (update_c_exact sampleEngine 8 1 (by decide) (by decide)).1,
    (update_c_exact sampleEngine 8 1 (by decide) (by decide)).2.2.2.2.2.1⟩

/-! ## Construction -/

/-- An `int` product that fits 32 bits is the exact product. -/
theorem wrapInt32_of_fits (n : Int) (h0 : -2147483648 ≤ n) (h1 : n ≤ 2147483647) :
    wrapInt32 n = n := by
  unfold wrapInt32
  omega

/-- Claim C11 as stated fails: `JuliaSet(0, 3)` has `width <= 0`, and the
constructor returns an engine (with an empty buffer) instead of an error;
so does `JuliaSet(-1, -1)`, with a buffer of one entry. -/
theorem new_zero_width_counterexample :
    ((0 : Int) ≤ 0 ∨ (3 : Int) ≤ 0) ∧
    JuliaSet.new 0 3 = Except.ok
      { width_ := 0, height_ := 3, max_iter_ := 300, radius_ := 2.0,
        c_ := ⟨0.282, -0.58⟩, pixels_ := [], update_c_ := false } ∧
    JuliaSet.new (-1) (-1) = Except.ok
      { width_ := -1, height_ := -1, max_iter_ := 300, radius_ := 2.0,
        c_ := ⟨0.282, -0.58⟩, pixels_ := [0], update_c_ := false } := by
  refine ⟨Or.inl (le_refl 0), ?_, ?_⟩
  · simp [JuliaSet.new, wrapInt32]
  · simp [JuliaSet.new, wrapInt32]

/-- Claim C11, amended.  The constructor does not examine `width` or
`height` and has no invalid-configuration error: positive dimensions whose
product fits an `int` construct an engine of these dimensions with
`width * height` buffer entries, and a zero `width` or `height` is accepted
too, giving an engine with an empty buffer. -/
theorem new_no_validation (width height : Int) :
    (0 < width → 0 < height → width * height ≤ 2147483647 →
      ∃ s, JuliaSet.new width height = Except.ok s ∧ s.width_ = width ∧
        s.height_ = height ∧ s.pixels_.length = (width * height).toNat) ∧
    (width = 0 ∨ height = 0 →
      ∃ s, JuliaSet.new width height = Except.ok s ∧ s.width_ = width ∧
        s.height_ = height ∧ s.pixels_ = []) := by
  constructor
  · intro hw hh hfit
    have hnn : 0 ≤ width * height := mul_nonneg hw.le hh.le
    have hwrap : wrapInt32 (width * height) = width * height :=
      wrapInt32_of_fits _ (by omega) hfit
    refine ⟨_, by unfold JuliaSet.new; rw [hwrap, if_neg (not_lt.mpr hnn)], rfl, rfl, ?_⟩
    simp
  · intro h0
    have hz : width * height = 0 := by
      rcases h0 with h0 | h0 <;> simp [h0]
    have hwrap : wrapInt32 (width * height) = 0 := by
      rw [hz]
      exact wrapInt32_of_fits 0 (by norm_num) (by norm_num)
    refine ⟨_, by unfold JuliaSet.new; rw [hwrap, if_neg (lt_irrefl 0)], rfl, rfl, ?_⟩
    simp

/-- Instance of the amended C11: `JuliaSet(4, 3)` and `JuliaSet(0, 3)`. -/
theorem new_no_validation_witness :
    (∃ s, JuliaSet.new 4 3 = Except.ok s ∧ s.width_ = 4 ∧ s.height_ = 3 ∧
      s.pixels_.length = ((4 : Int) * 3).toNat) ∧
    (∃ s, JuliaSet.new 0 3 = Except.ok s ∧ s.width_ = 0 ∧ s.height_ = 3 ∧ s.pixels_ = []) :=
  ⟨(new_no_validation 4 3).1 (by decide) (by decide) (by decide),
    (new_no_validation 0 3).2 (Or.inl rfl)⟩

/-- Claim C17.  An engine returned by the constructor for `(width, height)`
has `max_iter_ = 300`, `radius_ = 2.0`, `c_ = (0.282, -0.58)`, the tracking
flag false, and the given `width_` and `height_`. -/
theorem new_defaults (width height : Int) (s : JuliaSet)
    (hs : JuliaSet.new width height = Except.ok s) :
    s.max_iter_ = 300 ∧ s.radius_ = 2.0 ∧ s.c_ = ⟨0.282, -0.58⟩ ∧
    s.updating_c = false ∧ s.width_ = width ∧ s.height_ = height := by
  unfold JuliaSet.new at hs
  split at hs
  · cases hs
  · injection hs with hs
    subst hs
    exact ⟨rfl, rfl, rfl, rfl, rfl, rfl⟩

/-- Instance of C17: `JuliaSet(4, 3)`. -/
theorem new_defaults_witness :
    JuliaSet.new 4 3 = Except.ok
      { width_ := 4, height_ := 3, max_iter_ := 300, radius_ := 2.0,
        c_ := ⟨0.282, -0.58⟩, pixels_ := List.replicate 12 0, update_c_ := false } ∧
    (JuliaSet.mk 4 3 300 2.0 ⟨0.282, -0.58⟩ (List.replicate 12 0) false).max_iter_ = 300 ∧
    (JuliaSet.mk 4 3 300 2.0 ⟨0.282, -0.58⟩ (List.replicate 12 0) false).radius_ = 2.0 ∧
    (JuliaSet.mk 4 3 300 2.0 ⟨0.282, -0.58⟩ (List.replicate 12 0) false).c_ = ⟨0.282, -0.58⟩ ∧
    (JuliaSet.mk 4 3 300 2.0 ⟨0.282, -0.58⟩ (List.replicate 12 0) false).updating_c = false ∧
    (JuliaSet.mk 4 3 300 2.0 ⟨0.282, -0.58⟩ (List.replicate 12 0) false).width_ = 4 ∧
    (JuliaSet.mk 4 3 300 2.0 ⟨0.282, -0.58⟩ (List.replicate 12 0) false).height_ = 3 :=
  have h : JuliaSet.new 4 3 = Except.ok
      { width_ := 4, height_ := 3, max_iter_ := 300, radius_ := 2.0,
        c_ := ⟨0.282, -0.58⟩, pixels_ := List.replicate 12 0, update_c_ := false } := by
    simp [JuliaSet.new, wrapInt32]
  ⟨h, new_defaults 4 3 _ h⟩

/-! ## The title string -/

/-- Claim C12.  `c_string` prints `c_` as `c = X.XXX ±Y.YYYi`, three decimals
on both parts and an explicit sign on the imaginary part: for
`c_ = (0.282, -0.58)` it returns `"c = 0.282 -0.580i"`, for `c_ = (-0.1, 0.3)`
it returns `"c = -0.100 +0.300i"`. -/
theorem c_string_examples :
    (∀ s : JuliaSet, s.c_ = ⟨0.282, -0.58⟩ → s.c_string = "c = 0.282 -0.580i") ∧
    (∀ s : JuliaSet, s.c_ = ⟨-0.1, 0.3⟩ → s.c_string = "c = -0.100 +0.300i") ∧
    (∀ x : ℚ, (formatFixed3 true x).head? = some (if x < 0 then '-' else '+')) := by
  have t1 : thousandths 0.282 = 282 := by norm_num [thousandths, roundHalfEven]
  have t2 : thousandths (-0.58) = 580 := by norm_num [thousandths, roundHalfEven]
  have t3 : thousandths (-0.1) = 100 := by norm_num [thousandths, roundHalfEven]
  have t4 : thousandths 0.3 = 300 := by norm_num [thousandths, roundHalfEven]
  have n1 : decide ((0.282 : ℚ) < 0) = false := by norm_num
  have n2 : decide ((-0.58 : ℚ) < 0) = true := by norm_num
  have n3 : decide ((-0.1 : ℚ) < 0) = true := by norm_num
  have n4 : decide ((0.3 : ℚ) < 0) = false := by norm_num
  refine ⟨?_, ?_, ?_⟩
  · intro s hs
    unfold JuliaSet.c_string formatFixed3
    rw [hs]
    simp only [t1, t2, n1, n2]
    decide
  · intro s hs
    unfold JuliaSet.c_string formatFixed3
    rw [hs]
    simp only [t3, t4, n3, n4]
    decide
  · intro x
    unfold formatFixed3 fixed3
    by_cases hx : x < 0
    · simp [hx]
    · simp [hx]

/-! ## Frame of the operations -/

/-- Claim C15.  `render` changes only the pixel buffer: `c_`, the tracking
flag, `width_`, `height_`, `max_iter_` and `radius_` are the same after it;
and none of the operations that modify the engine (`render`, `update_c`,
`set_update_c`), hence no event, changes `width_`, `height_`, `max_iter_` or
`radius_`. -/
theorem render_frame (s : JuliaSet) :
    (s.render.c_ = s.c_ ∧ s.render.updating_c = s.updating_c ∧
      s.render.width_ = s.width_ ∧ s.render.height_ = s.height_ ∧
      s.render.max_iter_ = s.max_iter_ ∧ s.render.radius_ = s.radius_) ∧
    (∀ x y : Int, (s.update_c x y).width_ = s.width_ ∧ (s.update_c x y).height_ = s.height_ ∧
      (s.update_c x y).max_iter_ = s.max_iter_ ∧ (s.update_c x y).radius_ = s.radius_) ∧
    (∀ flag : Bool, (s.set_update_c flag).width_ = s.width_ ∧
      (s.set_update_c flag).height_ = s.height_ ∧
      (s.set_update_c flag).max_iter_ = s.max_iter_ ∧
      (s.set_update_c flag).radius_ = s.radius_) ∧
    (∀ (q : Bool) (e : Event),
      (handleEvent ⟨s, q⟩ e).julia.width_ = s.width_ ∧
      (handleEvent ⟨s, q⟩ e).julia.height_ = s.height_ ∧
      (handleEvent ⟨s, q⟩ e).julia.max_iter_ = s.max_iter_ ∧
      (handleEvent ⟨s, q⟩ e).julia.radius_ = s.radius_) := by
  refine ⟨⟨rfl, rfl, rfl, rfl, rfl, rfl⟩, fun _ _ => ⟨rfl, rfl, rfl, rfl⟩,
    fun _ => ⟨rfl, rfl, rfl, rfl⟩, ?_⟩
  intro q e
  cases e with
  | quit => exact ⟨rfl, rfl, rfl, rfl⟩
  | other => exact ⟨rfl, rfl, rfl, rfl⟩
  | keyDown sym =>
    simp only [handleEvent]
    split
    · exact ⟨rfl, rfl, rfl, rfl⟩
    · split <;> exact ⟨rfl, rfl, rfl, rfl⟩
  | mouseMotion x y =>
    simp only [handleEvent]
    split <;> exact ⟨rfl, rfl, rfl, rfl⟩
  | mouseButtonDown =>
    simp only [handleEvent]
    split <;> exact ⟨rfl, rfl, rfl, rfl⟩

/-! ## More on the escape-time iteration -/

/-- Claim C16.  For the start point `(0, 0)`, `c_ = (0, 0)`, a cap
`max_iter_ > 0` and a radius `≥ 0`, `iterations` returns `max_iter_`: the
orbit stays at 0 and never exceeds the radius. -/
theorem iterations_origin (s : JuliaSet) (hc : s.c_ = ⟨0, 0⟩) (hr : 0 ≤ s.radius_)
    (hm : 0 < s.max_iter_) :
    s.iterations ⟨0, 0⟩ = s.max_iter_ ∧
    (∀ k : Nat, orbit s.c_ ⟨0, 0⟩ k = ⟨0, 0⟩) := by
  have horb : ∀ k : Nat, orbit s.c_ ⟨0, 0⟩ k = ⟨0, 0⟩ := by
    intro k
    induction k with
    | zero => rfl
    | succ k ih =>
      show Cplx.add (Cplx.mul (orbit s.c_ ⟨0, 0⟩ k) (orbit s.c_ ⟨0, 0⟩ k)) s.c_ = _
      rw [ih, hc]
      simp [Cplx.add, Cplx.mul]
  have hin : (⟨0, 0⟩ : Cplx).absLe s.radius_ = true := by
    rw [Cplx.absLe_iff]
    refine ⟨hr, ?_⟩
    simp only [Cplx.normSq]
    nlinarith
  obtain ⟨d, hd1, hd2, -, hd4⟩ :=
    iterationsLoop_spec s.radius_ s.c_ s.max_iter_ s.max_iter_.toNat ⟨0, 0⟩ 0 hm.le (by omega)
  refine ⟨?_, horb⟩
  unfold JuliaSet.iterations
  rw [hd1]
  by_contra hne
  have hesc := hd4 (by omega)
  rw [horb d, hin] at hesc
  exact Bool.noConfusion hesc

/-- Instance of C16: cap 6, radius 2. -/
theorem iterations_origin_witness :
    ((JuliaSet.mk 4 3 6 2 ⟨0, 0⟩ [] false).c_ = ⟨0, 0⟩ ∧
      (0 : ℚ) ≤ (JuliaSet.mk 4 3 6 2 ⟨0, 0⟩ [] false).radius_ ∧
      (0 : Int) < (JuliaSet.mk 4 3 6 2 ⟨0, 0⟩ [] false).max_iter_) ∧
    (JuliaSet.mk 4 3 6 2 ⟨0, 0⟩ [] false).iterations ⟨0, 0⟩ = 6 :=
  have h1 : (JuliaSet.mk 4 3 6 2 ⟨0, 0⟩ [] false).c_ = ⟨0, 0⟩ := rfl
  have h2 : (0 : ℚ) ≤ (JuliaSet.mk 4 3 6 2 ⟨0, 0⟩ [] false).radius_ := by
    show (0 : ℚ) ≤ 2
    norm_num
  have h3 : (0 : Int) < (JuliaSet.mk 4 3 6 2 ⟨0, 0⟩ [] false).max_iter_ := by decide
  ⟨⟨h1, h2, h3⟩, (iterations_origin _ h1 h2 h3).1⟩

/-- Claim C19.  The cap only truncates the escape count: for caps
`0 ≤ m ≤ M`, `iterations` with cap `m` is `min m (iterations with cap M)`;
hence the count is monotone in the cap, and a point that escapes within `m`
steps has the same count under the larger cap. -/
theorem iterations_cap (s : JuliaSet) (z0 : Cplx) (m M : Int) (hm : 0 ≤ m) (hmM : m ≤ M) :
    { s with max_iter_ := m }.iterations z0 =
      min m ({ s with max_iter_ := M }.iterations z0) ∧
    { s with max_iter_ := m }.iterations z0 ≤ { s with max_iter_ := M }.iterations z0 ∧
    ({ s with max_iter_ := m }.iterations z0 < m →
      { s with max_iter_ := M }.iterations z0 = { s with max_iter_ := m }.iterations z0) := by
  obtain ⟨d, hd1, hd2, hd3, hd4⟩ :=
    iterationsLoop_spec s.radius_ s.c_ m m.toNat z0 0 hm (by omega)
  obtain ⟨e, he1, he2, he3, he4⟩ :=
    iterationsLoop_spec s.radius_ s.c_ M M.toNat z0 0 (by omega) (by omega)
  have hd : { s with max_iter_ := m }.iterations z0 = (d : Int) := by
    show iterationsLoop s.radius_ s.c_ m m.toNat z0 0 = (d : Int)
    rw [hd1]; simp
  have he : { s with max_iter_ := M }.iterations z0 = (e : Int) := by
    show iterationsLoop s.radius_ s.c_ M M.toNat z0 0 = (e : Int)
    rw [he1]; simp
  simp only [zero_add] at hd2 hd4 he2 he4
  have hle : d ≤ e := by
    by_contra hlt
    have h1 := hd3 e (by omega)
    have h2 := he4 (by omega)
    rw [h1] at h2
    exact Bool.noConfusion h2
  have hcase : (d : Int) < m → d = e := by
    intro hlt
    by_contra hne
    have h1 := he3 d (by omega)
    have h2 := hd4 hlt
    rw [h1] at h2
    exact Bool.noConfusion h2
  rw [hd, he]
  refine ⟨?_, by exact_mod_cast hle, ?_⟩
  · by_cases hlt : (d : Int) < m
    · have := hcase hlt
      subst this
      rw [min_eq_right (by omega)]
    · have hdm : (d : Int) = m := by omega
      rw [hdm, min_eq_left]
      have : (d : Int) ≤ e := by exact_mod_cast hle
      omega
  · intro hlt
    rw [hcase hlt]

/-- Instance of C19 at `sampleEngine`, start point `(1, 1)`, caps 2 and 5. -/
theorem iterations_cap_witness :
    ((0 : Int) ≤ 2 ∧ (2 : Int) ≤ 5) ∧
    { sampleEngine with max_iter_ := 2 }.iterations ⟨1, 1⟩ =
      min 2 ({ sampleEngine with max_iter_ := 5 }.iterations ⟨1, 1⟩) :=
  ⟨⟨by decide, by decide⟩, (iterations_cap sampleEngine ⟨1, 1⟩ 2 5 (by decide) (by decide)).1⟩

/-! ## The buffer across renders -/

/-- Two buffers of one length that agree wherever no step writes end equal. -/
theorem foldl_set_congr {α β : Type} (idx : α → Nat) (val : α → β) (l : List α)
    (buf1 buf2 : List β) (hlen : buf1.length = buf2.length)
    (h : ∀ k, (∀ a ∈ l, idx a ≠ k) → buf1[k]? = buf2[k]?) :
    l.foldl (fun b a => b.set (idx a) (val a)) buf1 =
      l.foldl (fun b a => b.set (idx a) (val a)) buf2 := by
  induction l generalizing buf1 buf2 with
  | nil =>
    apply List.ext_getElem?
    intro k
    exact h k (fun a ha => nomatch ha)
  | cons a t ih =>
    rw [List.foldl_cons, List.foldl_cons]
    apply ih
    · simp [hlen]
    · intro k hk
      rw [List.getElem?_set, List.getElem?_set, hlen]
      by_cases hak : idx a = k
      · simp [hak]
      · rw [if_neg hak, if_neg hak]
        apply h k
        intro b hb
        rcases List.mem_cons.mp hb with hb | hb
        · rw [hb]; exact hak
        · exact hk b hb

theorem renderLoop_length (s : JuliaSet) (buf : List Nat) :
    (s.renderLoop buf).length = buf.length := by
  rw [renderLoop_eq_foldl]
  exact foldl_set_length (fun p : Nat × Nat => s.pixelIndex p.1 p.2)
    (fun p : Nat × Nat => s.pixelValue p.1 p.2) _ buf

/-- After the loops, the entry of a pixel of the image is the value computed
for that pixel. -/
theorem renderLoop_hit (s : JuliaSet) (buf : List Nat) (px py : Nat)
    (hpx : (px : Int) < s.width_) (hpy : (py : Int) < s.height_)
    (hlt : s.pixelIndex px py < buf.length) :
    (s.renderLoop buf)[s.pixelIndex px py]? = some (s.pixelValue px py) := by
  rw [renderLoop_eq_foldl]
  apply foldl_set_hit (fun p : Nat × Nat => s.pixelIndex p.1 p.2)
    (fun p : Nat × Nat => s.pixelValue p.1 p.2)
  · exact ⟨(px, py), (mem_pixelCoords s px py).mpr ⟨hpx, hpy⟩, rfl⟩
  · exact hlt
  · rintro ⟨qx, qy⟩ hq hidx
    have hq2 := (mem_pixelCoords s qx qy).mp hq
    obtain ⟨h1, h2⟩ := pixelIndex_inj s qx qy px py hq2.1 hpx hidx
    subst h1
    subst h2
    rfl

/-- The loops started on two buffers of one length that agree outside the
image end with the same buffer. -/
theorem renderLoop_congr (s : JuliaSet) (buf1 buf2 : List Nat)
    (hlen : buf1.length = buf2.length)
    (h : ∀ k, (∀ px py : Nat, (px : Int) < s.width_ → (py : Int) < s.height_ →
      s.pixelIndex px py ≠ k) → buf1[k]? = buf2[k]?) :
    s.renderLoop buf1 = s.renderLoop buf2 := by
  rw [renderLoop_eq_foldl, renderLoop_eq_foldl]
  apply foldl_set_congr (fun p : Nat × Nat => s.pixelIndex p.1 p.2)
    (fun p : Nat × Nat => s.pixelValue p.1 p.2) _ _ _ hlen
  intro k hk
  apply h k
  intro px py hpx hpy
  exact hk (px, py) ((mem_pixelCoords s px py).mpr ⟨hpx, hpy⟩)

theorem renderLoop_untouched (s : JuliaSet) (buf : List Nat) (k : Nat)
    (h : ∀ px py : Nat, (px : Int) < s.width_ → (py : Int) < s.height_ →
      s.pixelIndex px py ≠ k) :
    (s.renderLoop buf)[k]? = buf[k]? := by
  rw [renderLoop_eq_foldl]
  apply foldl_set_untouched (fun p : Nat × Nat => s.pixelIndex p.1 p.2)
    (fun p : Nat × Nat => s.pixelValue p.1 p.2)
  rintro ⟨px, py⟩ hp
  have := (mem_pixelCoords s px py).mp hp
  exact h px py this.1 this.2

/-- Every position of a buffer of `width_ * height_` entries is the
row-major index of a pixel of the image. -/
theorem pixelIndex_surj (s : JuliaSet) (k : Nat) (hW : 0 < s.width_)
    (hk : k < (s.width_ * s.height_).toNat) :
    ∃ px py : Nat, (px : Int) < s.width_ ∧ (py : Int) < s.height_ ∧ s.pixelIndex px py = k := by
  obtain ⟨W, hWe⟩ : ∃ W : Nat, s.width_ = W := ⟨s.width_.toNat, by omega⟩
  have hWpos : 0 < W := by omega
  have hHpos : 0 < s.height_ := by
    by_contra hneg
    have : s.width_ * s.height_ ≤ 0 := mul_nonpos_of_nonneg_of_nonpos hW.le (by omega)
    omega
  obtain ⟨H, hHe⟩ : ∃ H : Nat, s.height_ = H := ⟨s.height_.toNat, by omega⟩
  have hk2 : k < W * H := by
    rw [hWe, hHe] at hk
    have : ((W : Int) * (H : Int)).toNat = W * H := by
      rw [← Nat.cast_mul]; exact Int.toNat_natCast _
    omega
  refine ⟨k % W, k / W, ?_, ?_, ?_⟩
  · rw [hWe]
    exact_mod_cast Nat.mod_lt k hWpos
  · rw [hHe]
    exact_mod_cast (Nat.div_lt_iff_lt_mul hWpos).mpr (by rw [Nat.mul_comm] at hk2; exact hk2)
  · unfold JuliaSet.pixelIndex
    rw [hWe]
    have : ((k / W : Nat) : Int) * (W : Int) + ((k % W : Nat) : Int) = ((k : Nat) : Int) := by
      rw [← Nat.cast_mul, ← Nat.cast_add]
      congr 1
      rw [Nat.mul_comm]
      exact Nat.div_add_mod k W
    rw [this]
    exact Int.toNat_natCast k

/-- Claim C13.  Render idempotence: for every engine state, a second `render`
with no event in between leaves the buffer (indeed the engine) as the first
one left it; and for an image of positive dimensions whose buffer has
`width_ * height_` entries, the rendered buffer depends only on `c_`,
`width_`, `height_`, `max_iter_` and `radius_`, not on the previous
contents. -/
theorem render_idempotent (s : JuliaSet) :
    s.render.render.pixels_ = s.render.pixels_ ∧
    s.render.render = s.render ∧
    (∀ t : JuliaSet, t.c_ = s.c_ → t.width_ = s.width_ → t.height_ = s.height_ →
      t.max_iter_ = s.max_iter_ → t.radius_ = s.radius_ →
      0 < s.width_ → 0 < s.height_ →
      s.pixels_.length = (s.width_ * s.height_).toNat →
      t.pixels_.length = (s.width_ * s.height_).toNat →
      t.render.pixels_ = s.render.pixels_) := by
  have hidem : s.renderLoop (s.renderLoop s.pixels_) = s.renderLoop s.pixels_ := by
    apply renderLoop_congr s _ _ (renderLoop_length s _)
    intro k hk
    exact renderLoop_untouched s _ k hk
  refine ⟨hidem, ?_, ?_⟩
  · show ({ s with pixels_ := s.renderLoop (s.renderLoop s.pixels_) } : JuliaSet) =
      { s with pixels_ := s.renderLoop s.pixels_ }
    rw [hidem]
  · intro t hc hw hh hm hr hW hH hls hlt
    have hloop : ∀ buf, t.renderLoop buf = s.renderLoop buf := by
      intro buf
      unfold JuliaSet.renderLoop JuliaSet.renderColumn JuliaSet.pixelIndex JuliaSet.pixelValue
        JuliaSet.pixelPoint JuliaSet.iterations
      rw [hc, hw, hh, hm, hr]
    show t.renderLoop t.pixels_ = s.renderLoop s.pixels_
    rw [hloop]
    apply renderLoop_congr s _ _ (by rw [hls, hlt])
    intro k hk
    by_cases hlt2 : k < (s.width_ * s.height_).toNat
    · obtain ⟨px, py, h1, h2, h3⟩ := pixelIndex_surj s k hW hlt2
      exact absurd h3 (hk px py h1 h2)
    · rw [List.getElem?_eq_none (by omega), List.getElem?_eq_none (by omega)]

theorem mem_writtenIndices (s : JuliaSet) (k : Nat) :
    k ∈ s.writtenIndices ↔
      ∃ px py : Nat, (px : Int) < s.width_ ∧ (py : Int) < s.height_ ∧ s.pixelIndex px py = k := by
  simp only [JuliaSet.writtenIndices, List.mem_flatMap, List.mem_range, List.mem_map]
  constructor
  · rintro ⟨px, hpx, py, hpy, rfl⟩
    exact ⟨px, py, by omega, by omega, rfl⟩
  · rintro ⟨px, py, hpx, hpy, rfl⟩
    exact ⟨px, by omega, py, by omega, rfl⟩

/-- No index is written twice in one render. -/
theorem writtenIndices_nodup (s : JuliaSet) : s.writtenIndices.Nodup := by
  unfold JuliaSet.writtenIndices
  rw [List.nodup_flatMap]
  constructor
  · intro px hpx
    have hpx2 : (px : Int) < s.width_ := by
      have := List.mem_range.mp hpx
      omega
    apply List.Nodup.map_on _ (List.nodup_range _)
    intro a _ b _ hab
    exact (pixelIndex_inj s px a px b hpx2 hpx2 hab).2
  · apply List.Nodup.pairwise_of_forall_ne (List.nodup_range _)
    intro a ha b hb hab
    have ha2 : (a : Int) < s.width_ := by
      have := List.mem_range.mp ha
      omega
    have hb2 : (b : Int) < s.width_ := by
      have := List.mem_range.mp hb
      omega
    show List.Disjoint _ _
    intro k hk1 hk2
    obtain ⟨py1, _, h1⟩ := List.mem_map.mp hk1
    obtain ⟨py2, _, h2⟩ := List.mem_map.mp hk2
    exact hab (pixelIndex_inj s a py1 b py2 ha2 hb2 (h1.trans h2.symm)).1

/-- Claim C14 as stated fails for `JuliaSet(65536, 65536)`: both dimensions
are positive, the `int` product `width * height` wraps to 0 and the buffer
gets no entry, so its length is not `width * height`, and the index 0 that
`render` writes for the pixel `(0, 0)` is not inside the buffer. -/
theorem buffer_length_counterexample :
    ∃ s, JuliaSet.new 65536 65536 = Except.ok s ∧
      0 < s.width_ ∧ 0 < s.height_ ∧
      s.pixels_.length = 0 ∧ (s.pixels_.length : Int) ≠ s.width_ * s.height_ ∧
      0 ∈ s.writtenIndices ∧ ¬ (0 < s.pixels_.length) := by
  refine ⟨JuliaSet.mk 65536 65536 300 2.0 ⟨0.282, -0.58⟩ [] false,
    ?_, ?_, ?_, rfl, ?_, ?_, ?_⟩
  · simp [JuliaSet.new, wrapInt32]
  · show (0 : Int) < 65536
    norm_num
  · show (0 : Int) < 65536
    norm_num
  · show ((0 : Nat) : Int) ≠ 65536 * 65536
    norm_num
  · rw [mem_writtenIndices]
    refine ⟨0, 0, ?_, ?_, ?_⟩
    · show ((0 : Nat) : Int) < 65536
      norm_num
    · show ((0 : Nat) : Int) < 65536
      norm_num
    · simp [JuliaSet.pixelIndex]
  · simp

/-- Claim C14, amended.  Pixel-buffer invariant for `width_ > 0`,
`height_ > 0` whose product fits an `int`: the buffer has exactly
`width_ * height_` entries after construction, and `render` and every event
keep its length; the indices `py * width_ + px` that `render` writes are all
below `width_ * height_` and are every position of the buffer exactly once;
so on a buffer of that length every entry after `render` is the value
computed for its pixel, none is a stale one. -/
theorem pixel_buffer_invariant (s : JuliaSet) (hW : 0 < s.width_) (hH : 0 < s.height_)
    (hfit : s.width_ * s.height_ ≤ 2147483647) :
    (∃ s0, JuliaSet.new s.width_ s.height_ = Except.ok s0 ∧
      s0.pixels_.length = (s.width_ * s.height_).toNat) ∧
    s.render.pixels_.length = s.pixels_.length ∧
    (∀ (q : Bool) (e : Event), (handleEvent ⟨s, q⟩ e).julia.pixels_ = s.pixels_) ∧
    (∀ k ∈ s.writtenIndices, k < (s.width_ * s.height_).toNat) ∧
    (∀ k, k < (s.width_ * s.height_).toNat → k ∈ s.writtenIndices) ∧
    s.writtenIndices.Nodup ∧
    (∀ k, k < (s.width_ * s.height_).toNat → s.writtenIndices.count k = 1) ∧
    (s.pixels_.length = (s.width_ * s.height_).toNat →
      ∀ k, k < (s.width_ * s.height_).toNat →
        ∃ px py : Nat, (px : Int) < s.width_ ∧ (py : Int) < s.height_ ∧
          (py : Int) * s.width_ + px = k ∧
          s.render.pixels_[k]? = some (s.pixelValue px py)) := by
  have hcover : ∀ k, k < (s.width_ * s.height_).toNat → k ∈ s.writtenIndices := by
    intro k hk
    exact (mem_writtenIndices s k).mpr (pixelIndex_surj s k hW hk)
  refine ⟨?_, renderLoop_length s _, ?_, ?_, hcover, writtenIndices_nodup s, ?_, ?_⟩
  · have hnn : ¬ s.width_ * s.height_ < 0 := not_lt.mpr (mul_nonneg hW.le hH.le)
    have hwrap : wrapInt32 (s.width_ * s.height_) = s.width_ * s.height_ :=
      wrapInt32_of_fits _ (by omega) hfit
    refine ⟨_, by unfold JuliaSet.new; rw [hwrap, if_neg hnn], ?_⟩
    simp
  · intro q e
    cases e with
    | quit => rfl
    | other => rfl
    | keyDown sym =>
      simp only [handleEvent]
      split
      · rfl
      · split <;> rfl
    | mouseMotion x y =>
      simp only [handleEvent]
      split <;> rfl
    | mouseButtonDown =>
      simp only [handleEvent]
      split <;> rfl
  · intro k hk
    obtain ⟨px, py, hpx, hpy, rfl⟩ := (mem_writtenIndices s k).mp hk
    exact pixelIndex_lt s px py hpx hpy
  · intro k hk
    exact List.count_eq_one_of_mem (writtenIndices_nodup s) (hcover k hk)
  · intro hlen k hk
    obtain ⟨px, py, hpx, hpy, hidx⟩ := pixelIndex_surj s k hW hk
    refine ⟨px, py, hpx, hpy, ?_, ?_⟩
    · have hw : (0 : Int) ≤ s.width_ := hW.le
      have e1 : (0 : Int) ≤ (py : Int) * s.width_ + px := by positivity
      unfold JuliaSet.pixelIndex at hidx
      omega
    · rw [← hidx]
      exact renderLoop_hit s _ px py hpx hpy (by rw [hidx, hlen]; exact hk)

/-- Instance of the amended C14 at `sampleEngine` (4 x 3, a buffer of 12
entries). -/
theorem pixel_buffer_invariant_witness :
    ((0 : Int) < sampleEngine.width_ ∧ (0 : Int) < sampleEngine.height_ ∧
      sampleEngine.width_ * sampleEngine.height_ ≤ 2147483647) ∧
    sampleEngine.render.pixels_.length = sampleEngine.pixels_.length ∧
    sampleEngine.writtenIndices.Nodup ∧
    (∀ k, k < (sampleEngine.width_ * sampleEngine.height_).toNat →
      sampleEngine.writtenIndices.count k = 1) :=
  ⟨⟨by decide, by decide, by decide⟩,
    (pixel_buffer_invariant sampleEngine (by decide) (by decide) (by decide)).2.1,
    (pixel_buffer_invariant sampleEngine (by decide) (by decide) (by decide)).2.2.2.2.2.1,
    (pixel_buffer_invariant sampleEngine (by decide) (by decide) (by decide)).2.2.2.2.2.2.1⟩

/-! ## Which counts are drawn black -/

/-- In the lower half of the range the blue palette value is at least 1. -/
theorem blue_ge_one (t : ℚ) (h0 : 1 / 300 ≤ t) (h1 : t ≤ 1 / 2) :
    1 ≤ 8.5 * (1 - t) * (1 - t) * (1 - t) * t * 255 := by
  have e : 8.5 * (1 - t) * (1 - t) * (1 - t) * t * 255 =
      4335 / 2 * ((1 - t) * (1 - t) * (1 - t) * t) := by
    norm_num
    ring
  rw [e]
  have hu : 1 / 2 ≤ 1 - t := by linarith
  have hu2 : 1 / 4 ≤ (1 - t) * (1 - t) := by nlinarith
  have hu3 : 1 / 8 ≤ (1 - t) * (1 - t) * (1 - t) := by nlinarith
  by_cases hq : t ≤ 1 / 4
  · have hv : 3 / 4 ≤ 1 - t := by linarith
    have hv2 : 9 / 16 ≤ (1 - t) * (1 - t) := by nlinarith
    have hv3 : 27 / 64 ≤ (1 - t) * (1 - t) * (1 - t) := by nlinarith
    have hp : 27 / 64 * (1 / 300) ≤ (1 - t) * (1 - t) * (1 - t) * t :=
      mul_le_mul hv3 h0 (by norm_num) (by linarith)
    linarith
  · have hp : 1 / 8 * (1 / 4) ≤ (1 - t) * (1 - t) * (1 - t) * t :=
      mul_le_mul hu3 (by linarith) (by norm_num) (by linarith)
    linarith

/-- In the upper half of the range the red palette value is at least 1. -/
theorem red_ge_one (t : ℚ) (h0 : 1 / 2 ≤ t) (h1 : t ≤ 299 / 300) :
    1 ≤ 9 * (1 - t) * t * t * t * 255 := by
  have e : 9 * (1 - t) * t * t * t * 255 = 2295 * (t * t * t * (1 - t)) := by ring
  rw [e]
  have hu2 : 1 / 4 ≤ t * t := by nlinarith
  have hu3 : 1 / 8 ≤ t * t * t := by nlinarith
  by_cases hq : 3 / 4 ≤ t
  · have hv2 : 9 / 16 ≤ t * t := by nlinarith
    have hv3 : 27 / 64 ≤ t * t * t := by nlinarith
    have hp : 27 / 64 * (1 / 300) ≤ t * t * t * (1 - t) :=
      mul_le_mul hv3 (by linarith) (by norm_num) (by linarith)
    linarith
  · have hp : 1 / 8 * (1 / 4) ≤ t * t * t * (1 - t) :=
      mul_le_mul hu3 (by linarith) (by norm_num) (by linarith)
    linarith

/-- A palette value in `[1, 256)` is stored as a non-zero channel. -/
theorem toUint8_pos (x : ℚ) (h0 : 1 ≤ x) (h1 : x < 256) : 1 ≤ toUint8 x := by
  have h := toUint8_of_range x (by linarith) h1
  have hf : (1 : Int) ≤ ⌊x⌋ := Int.le_floor.mpr (by exact_mod_cast h0)
  omega

/-- Claim C18.  With the default cap 300, for an iteration count
`0 ≤ iter ≤ 300` (the range of `iterations`), the pixel written is pure black
`0xFF000000` if and only if `iter = 300` or `iter = 0`: the count 0 of a start
point already outside the radius is coloured like the count 300 of a point
presumed in the set, and every count from 1 to 299 has a non-zero red or blue
channel. -/
theorem black_iff_zero_or_cap (iter : Int) (h0 : 0 ≤ iter) (h1 : iter ≤ 300) :
    (colour 300 iter = 0xFF000000 ↔ (iter = 300 ∨ iter = 0)) ∧
    colour 300 0 = colour 300 300 ∧
    (1 ≤ iter → iter ≤ 299 →
      (channels 300 iter).1 ≠ 0 ∨ (channels 300 iter).2.1 ≠ 0 ∨ (channels 300 iter).2.2 ≠ 0) ∧
    (∀ (s : JuliaSet) (px py : Int), s.max_iter_ = 300 →
      (s.pixelValue px py = 0xFF000000 ↔
        (s.iterations (s.pixelPoint px py) = 300 ∨ s.iterations (s.pixelPoint px py) = 0))) := by
  have hcap : colour 300 300 = 0xFF000000 := by
    have hch : channels 300 300 = (0, 0, 0) := by
      unfold channels
      rw [if_neg (lt_irrefl _)]
    unfold colour
    rw [hch]
    decide
  have hzero : colour 300 0 = 0xFF000000 := by
    have hch : channels 300 0 = (0, 0, 0) := by
      unfold channels
      norm_num [toUint8, truncToInt]
    unfold colour
    rw [hch]
    decide
  have hmid : ∀ i : Int, 1 ≤ i → i ≤ 299 →
      ((channels 300 i).1 ≠ 0 ∨ (channels 300 i).2.1 ≠ 0 ∨ (channels 300 i).2.2 ≠ 0) ∧
      colour 300 i ≠ 0xFF000000 := by
    intro i hi0 hi1
    have hlt : i < 300 := by omega
    obtain ⟨ht0, ht1⟩ := ratio_range 300 i (by omega) hlt
    have hlow : (1 : ℚ) / 300 ≤ (i : ℚ) / ((300 : Int) : ℚ) := by
      have : (1 : ℚ) ≤ (i : ℚ) := by exact_mod_cast hi0
      push_cast
      linarith
    have hhigh : (i : ℚ) / ((300 : Int) : ℚ) ≤ 299 / 300 := by
      have : (i : ℚ) ≤ 299 := by exact_mod_cast hi1
      push_cast
      linarith
    generalize ht : (i : ℚ) / ((300 : Int) : ℚ) = t at ht0 ht1 hlow hhigh
    have hch : channels 300 i =
        (toUint8 (9 * (1 - t) * t * t * t * 255),
         toUint8 (15 * (1 - t) * (1 - t) * t * t * 255),
         toUint8 (8.5 * (1 - t) * (1 - t) * (1 - t) * t * 255)) := by
      unfold channels
      rw [if_pos hlt]
      simp only [ht]
    have hR := red_range t ht0 ht1.le
    have hB := blue_range t ht0 ht1.le
    have hnz : 1 ≤ toUint8 (9 * (1 - t) * t * t * t * 255) ∨
        1 ≤ toUint8 (8.5 * (1 - t) * (1 - t) * (1 - t) * t * 255) := by
      by_cases hhalf : t ≤ 1 / 2
      · exact Or.inr (toUint8_pos _ (blue_ge_one t hlow hhalf) (by linarith))
      · exact Or.inl (toUint8_pos _ (red_ge_one t (by linarith) hhigh) (by linarith))
    have hpack : colour 300 i =
        255 * 2 ^ 24 + toUint8 (9 * (1 - t) * t * t * t * 255) * 2 ^ 16 +
          toUint8 (15 * (1 - t) * (1 - t) * t * t * 255) * 2 ^ 8 +
          toUint8 (8.5 * (1 - t) * (1 - t) * (1 - t) * t * 255) := by
      unfold colour
      rw [hch]
      exact packARGB_eq _ _ _ (toUint8_lt _) (toUint8_lt _) (toUint8_lt _)
    constructor
    · rw [hch]
      rcases hnz with h | h
      · exact Or.inl (by show toUint8 _ ≠ 0; omega)
      · exact Or.inr (Or.inr (by show toUint8 _ ≠ 0; omega))
    · rw [hpack]
      rcases hnz with h | h <;> omega
  have hiff : ∀ i : Int, 0 ≤ i → i ≤ 300 →
      (colour 300 i = 0xFF000000 ↔ (i = 300 ∨ i = 0)) := by
    intro i hi0 hi1
    constructor
    · intro hb
      by_contra hne
      exact (hmid i (by omega) (by omega)).2 hb
    · rintro (h | h)
      · rw [h]; exact hcap
      · rw [h]; exact hzero
  refine ⟨hiff iter h0 h1, hzero.trans hcap.symm, fun a b => (hmid iter a b).1, ?_⟩
  intro s px py hs
  obtain ⟨d, hd1, hd2, -, -⟩ :=
    iterationsLoop_spec s.radius_ s.c_ s.max_iter_ s.max_iter_.toNat (s.pixelPoint px py) 0
      (by omega) (by omega)
  have hn : s.iterations (s.pixelPoint px py) = d := by
    unfold JuliaSet.iterations
    rw [hd1]; simp
  unfold JuliaSet.pixelValue
  rw [hs]
  exact hiff _ (by omega) (by rw [hs] at hd2; omega)

/-- Instance of C18 at the count 1, whose blue channel is 7. -/
theorem black_iff_zero_or_cap_witness :
    ((0 : Int) ≤ 1 ∧ (1 : Int) ≤ 300) ∧
    (colour 300 1 = 0xFF000000 ↔ ((1 : Int) = 300 ∨ (1 : Int) = 0)) ∧
    ((channels 300 1).1 ≠ 0 ∨ (channels 300 1).2.1 ≠ 0 ∨ (channels 300 1).2.2 ≠ 0) :=
  ⟨⟨by decide, by decide⟩,
    (black_iff_zero_or_cap 1 (by decide) (by decide)).1,
    (black_iff_zero_or_cap 1 (by decide) (by decide)).2.2.1 (by decide) (by decide)⟩

end Julia
